import Mathlib

/-!
Verification of the DPLL solver (`dpll.py`) and the Tseitin translator
(`formula2cnf.py`).

The Python code is embedded shallowly:

* clauses are `List Int` and a CNF formula is a `List (List Int)`, exactly the
  lists the Python code manipulates;
* the Python `set` used for the partial assignment and for the pending unit
  literals is modelled as a duplicate-free `List Int` in insertion order;
  `set.add` becomes `insertSet`.  `set.pop` returns an arbitrary element of a
  Python set; the model pops the first element in insertion order, a
  deterministic refinement of that choice;
* an uncaught Python exception (the `raise Exception` in `choose_literal`,
  or a failing `int(...)`/lookup while parsing) is modelled as `none` of an
  `Option` result.
-/

namespace Dpll

abbrev Clause := List Int
abbrev CNF := List Clause

/-- Python `set.add` on the insertion-ordered list model of a set:
appends the element unless it is already present. -/
def insertSet (s : List Int) (x : Int) : List Int :=
  if x ∈ s then s else s ++ [x]

/-- One clause of `DPLL.eliminate_formula`: scanning the literals in order,
a literal of the assignment satisfies the clause, which is dropped (`none`);
a literal whose negation is in the assignment is skipped; the rest are kept. -/
def elimClause (A : List Int) : Clause → Option Clause
  | [] => some []
  | l :: ls =>
    if l ∈ A then none
    else if -l ∈ A then elimClause A ls
    else (elimClause A ls).map (fun c => l :: c)

/-- `DPLL.eliminate_formula`: keeps the reduced clauses, in order. -/
def eliminate (F : CNF) (A : List Int) : CNF := F.filterMap (elimClause A)

/-- `new_clause = [other_literal for other_literal in clause if other_literal != -literal]`. -/
def stripLit (l : Int) (c : Clause) : Clause := c.filter (fun x => decide (x ≠ -l))

/-- One pass of the `while` loop of `DPLL.unit_propagation` for the popped
literal `l`: a clause containing `l` is dropped, otherwise `-l` is stripped;
an emptied clause aborts the pass (`none`, the conflict case).  The second
component collects the literals of clauses of length one, in the order the
pass meets them (the order the Python loop feeds them to `unit_clauses.add`). -/
def propPass (l : Int) : CNF → Option (CNF × List Int)
  | [] => some ([], [])
  | c :: cs =>
    if l ∈ c then propPass l cs
    else if stripLit l c = [] then none
    else
      match propPass l cs with
      | none => none
      | some (cs', us) =>
        some (stripLit l c :: cs',
          (if (stripLit l c).length = 1 then stripLit l c else []) ++ us)

/-- All literals occurring in a clause list. -/
def litsF (F : CNF) : Finset Int := F.flatten.toFinset

theorem mem_insertSet {s : List Int} {x y : Int} :
    y ∈ insertSet s x ↔ y ∈ s ∨ y = x := by
  unfold insertSet
  split
  · rename_i hx
    constructor
    · exact Or.inl
    · rintro (h | rfl)
      · exact h
      · exact hx
  · simp [List.mem_append]

theorem mem_foldl_insertSet {us : List Int} {s : List Int} {x : Int}
    (h : x ∈ us.foldl insertSet s) : x ∈ s ∨ x ∈ us := by
  induction us generalizing s with
  | nil => exact Or.inl h
  | cons u us ih =>
    rcases ih h with h' | h'
    · rcases mem_insertSet.mp h' with h'' | h''
      · exact Or.inl h''
      · exact Or.inr (by simp [h''])
    · exact Or.inr (List.mem_cons_of_mem _ h')

theorem mem_stripLit {l x : Int} {c : Clause} :
    x ∈ stripLit l c ↔ x ∈ c ∧ x ≠ -l := by
  simp [stripLit, List.mem_filter]

theorem propPass_some {l : Int} {F F' : CNF} {us : List Int}
    (h : propPass l F = some (F', us)) :
    (∀ x ∈ F'.flatten, x ∈ F.flatten ∧ x ≠ l ∧ x ≠ -l) ∧
      (∀ u ∈ us, u ∈ F'.flatten) := by
  induction F generalizing F' us with
  | nil =>
    simp only [propPass, Option.some.injEq, Prod.mk.injEq] at h
    obtain ⟨rfl, rfl⟩ := h
    simp
  | cons c cs ih =>
    rw [propPass] at h
    split at h
    · rename_i hmem
      obtain ⟨h1, h2⟩ := ih h
      refine ⟨fun x hx => ?_, h2⟩
      obtain ⟨hx1, hx2, hx3⟩ := h1 x hx
      refine ⟨?_, hx2, hx3⟩
      rw [List.flatten_cons, List.mem_append]
      exact Or.inr hx1
    · rename_i hmem
      split at h
      · exact absurd h (by simp)
      · split at h
        · exact absurd h (by simp)
        · rename_i cs' us' heq
          obtain ⟨rfl, rfl⟩ := by
            simpa only [Option.some.injEq, Prod.mk.injEq] using h
          obtain ⟨h1, h2⟩ := ih heq
          constructor
          · intro x hx
            rw [List.flatten_cons, List.mem_append] at hx
            rcases hx with hx | hx
            · obtain ⟨hxc, hxne⟩ := mem_stripLit.mp hx
              refine ⟨?_, ?_, hxne⟩
              · rw [List.flatten_cons, List.mem_append]
                exact Or.inl hxc
              · rintro rfl
                exact hmem hxc
            · obtain ⟨hx1, hx2, hx3⟩ := h1 x hx
              refine ⟨?_, hx2, hx3⟩
              rw [List.flatten_cons, List.mem_append]
              exact Or.inr hx1
          · intro u hu
            rw [List.mem_append] at hu
            rw [List.flatten_cons, List.mem_append]
            rcases hu with hu | hu
            · refine Or.inl ?_
              split at hu
              · exact hu
              · exact absurd hu (by simp)
            · exact Or.inr (h2 u hu)

theorem litsF_mono_propPass {l : Int} {F F' : CNF} {us : List Int}
    (h : propPass l F = some (F', us)) : litsF F' ⊆ (litsF F).erase l := by
  intro x hx
  rw [litsF, List.mem_toFinset] at hx
  obtain ⟨hx1, hx2, _⟩ := (propPass_some h).1 x hx
  rw [Finset.mem_erase, litsF, List.mem_toFinset]
  exact ⟨hx2, hx1⟩

theorem propLoop_measure {l : Int} {rest us : List Int} {RF RF' : CNF}
    (h : propPass l RF = some (RF', us)) :
    ((us.foldl insertSet (rest.filter (fun x => decide (x ≠ l)))).toFinset ∪
        litsF RF').card
      < ((l :: rest).toFinset ∪ litsF RF).card := by
  have hsub := litsF_mono_propPass h
  have hus := (propPass_some h).2
  have hnew : (us.foldl insertSet
        (rest.filter (fun x => decide (x ≠ l)))).toFinset ∪ litsF RF'
      ⊆ ((l :: rest).toFinset ∪ litsF RF).erase l := by
    intro x hx
    rw [Finset.mem_erase]
    rw [Finset.mem_union] at hx
    rcases hx with hx | hx
    · rw [List.mem_toFinset] at hx
      rcases mem_foldl_insertSet hx with hx' | hx'
      · rw [List.mem_filter, decide_eq_true_eq] at hx'
        exact ⟨hx'.2, Finset.mem_union_left _ (by simp [hx'.1])⟩
      · have hx'' : x ∈ litsF RF' := by
          rw [litsF, List.mem_toFinset]
          exact hus x hx'
        have hxe := Finset.mem_erase.mp (hsub hx'')
        exact ⟨hxe.1, Finset.mem_union_right _ hxe.2⟩
    · have hxe := Finset.mem_erase.mp (hsub hx)
      exact ⟨hxe.1, Finset.mem_union_right _ hxe.2⟩
  calc ((us.foldl insertSet (rest.filter (fun x => decide (x ≠ l)))).toFinset ∪
        litsF RF').card
      ≤ (((l :: rest).toFinset ∪ litsF RF).erase l).card :=
        Finset.card_le_card hnew
    _ < ((l :: rest).toFinset ∪ litsF RF).card :=
        Finset.card_erase_lt_of_mem (Finset.mem_union_left _ (by simp))

/-- The `while` loop of `DPLL.unit_propagation`, acting on the pending unit
literals, the current clause list and the assignment.  The loop exits when the
pending set or the clause list is empty; a conflict returns `(false, [], _)`
at once.  Terminates because each pop removes the popped literal both from the
pending set and from the clause list for good. -/
def propLoop (units : List Int) (RF : CNF) (A : List Int) :
    Bool × CNF × List Int :=
  match units with
  | [] => (true, RF, A)
  | l :: rest =>
    if RF = [] then (true, RF, A)
    else
      match h : propPass l RF with
      | none => (false, [], insertSet A l)
      | some (RF', us) =>
          propLoop (us.foldl insertSet (rest.filter (fun x => decide (x ≠ l))))
            RF' (insertSet A l)
  termination_by (units.toFinset ∪ litsF RF).card
  decreasing_by
    exact propLoop_measure h

/-- `DPLL.unit_propagation`: eliminates the clause list under the assignment,
collects the literals of the length-one clauses as the initial pending set
(in the order of the comprehension), and runs the loop.  Returns
(result, reduced clause list, assignment after the in-place additions). -/
def unitProp (F : CNF) (A : List Int) : Bool × CNF × List Int :=
  let RF := eliminate F A
  let units := RF.foldl
    (fun s c => match c with | [x] => insertSet s x | _ => s) []
  propLoop units RF A

/-- One dictionary update of `choose_literal`: a missing key is inserted at
the end with count 1 (Python dicts keep insertion order), a present key has
its count incremented in place. -/
def bump : List (Int × Nat) → Int → List (Int × Nat)
  | [], k => [(k, 1)]
  | (k', c) :: rest, k =>
    if k' = k then (k', c + 1) :: rest else (k', c) :: bump rest k

/-- The per-literal step of the counting loops of `choose_literal`:
a positive literal bumps its own key in the positive dictionary, any other
literal bumps `abs(literal)` in the negative dictionary. -/
def countStep (pn : List (Int × Nat) × List (Int × Nat)) (l : Int) :
    List (Int × Nat) × List (Int × Nat) :=
  if 0 < l then (bump pn.1 l, pn.2) else (pn.1, bump pn.2 (-l))

/-- The two occurrence dictionaries `positive_clause_cnt` and
`negative_clause_cnt` of `choose_literal`, built clause by clause and literal
by literal. -/
def countDicts (F : CNF) : List (Int × Nat) × List (Int × Nat) :=
  F.foldl (fun pn c => c.foldl countStep pn) ([], [])

/-- One step of Python's `max(dict, key=lambda k: (dict[k], -k))` over the
keys in insertion order: the current best is replaced only when the new key's
pair `(count, -key)` is strictly larger (Python `max` keeps the first
maximum, and pairs of distinct keys are never equal). -/
def maxStep (acc : Option (Int × Nat)) (e : Int × Nat) : Option (Int × Nat) :=
  match acc with
  | none => some e
  | some (k0, c0) =>
    if c0 < e.2 ∨ (c0 = e.2 ∧ -k0 < -e.1) then some e else acc

/-- Python's `max(dict, key=lambda k: (dict[k], -k))`, returning the chosen
key together with its count; `none` for the empty dictionary (where the
Python code keeps the sentinel `-1`). -/
def maxEntry (d : List (Int × Nat)) : Option (Int × Nat) := d.foldl maxStep none

/-- `DPLL.choose_literal`: `none` models the `raise Exception` when both
dictionaries are empty. -/
def chooseLit (F : CNF) : Option Int :=
  let pos := (countDicts F).1
  let neg := (countDicts F).2
  match maxEntry pos, maxEntry neg with
  | none, none => none
  | some pe, none => some pe.1
  | none, some ne => some (-ne.1)
  | some pe, some ne =>
    if ne.2 < pe.2 then some pe.1
    else if pe.2 < ne.2 then some (-ne.1)
    else if ne.1 ≤ pe.1 then some pe.1 else some (-ne.1)

/-- `sorted(assignment, key=abs)`: Python's `sorted` is a stable sort, and a
stable sort's output is determined by the key function alone, so any stable
sort gives the same list; insertion sort is used because it evaluates inside
the kernel. -/
def sortByAbs (A : List Int) : List Int :=
  A.insertionSort (fun a b => a.natAbs ≤ b.natAbs)

/-- The variables (magnitudes) occurring in a clause list. -/
def varsF (F : CNF) : Finset Nat := (F.flatten.map Int.natAbs).toFinset

/-- The variables assigned by an assignment list. -/
def avars (A : List Int) : Finset Nat := (A.map Int.natAbs).toFinset

theorem propLoop_sub {units : List Int} {RF : CNF} {A : List Int}
    {b : Bool} {RF' : CNF} {A' : List Int}
    (H : propLoop units RF A = (b, RF', A')) :
    (∀ x ∈ RF'.flatten, x ∈ RF.flatten) ∧ (∀ a ∈ A, a ∈ A') ∧
      ((∀ x ∈ RF.flatten, x ∉ A ∧ -x ∉ A) →
        ∀ x ∈ RF'.flatten, x ∉ A' ∧ -x ∉ A') := by
  match units with
  | [] =>
    rw [propLoop] at H
    obtain ⟨rfl, rfl, rfl⟩ := by simpa using H
    exact ⟨fun x hx => hx, fun a ha => ha, fun h => h⟩
  | l :: rest =>
    rw [propLoop] at H
    split at H
    · obtain ⟨rfl, rfl, rfl⟩ := by simpa using H
      exact ⟨fun x hx => hx, fun a ha => ha, fun h => h⟩
    · rename_i hRF
      split at H
      · rename_i h
        obtain ⟨rfl, rfl, rfl⟩ := by simpa using H
        refine ⟨by simp, fun a ha => mem_insertSet.mpr (Or.inl ha), ?_⟩
        intro _ x hx
        simp at hx
      · rename_i RF'' us h
        obtain ⟨ih1, ih2, ih3⟩ := propLoop_sub H
        refine ⟨?_, ?_, ?_⟩
        · intro x hx
          exact ((propPass_some h).1 x (ih1 x hx)).1
        · intro a ha
          exact ih2 a (mem_insertSet.mpr (Or.inl ha))
        · intro hred
          refine ih3 ?_
          intro y hy
          obtain ⟨hy1, hy2, hy3⟩ := (propPass_some h).1 y hy
          obtain ⟨hyA, hyA'⟩ := hred y hy1
          constructor
          · rw [mem_insertSet]
            rintro (h' | rfl)
            · exact hyA h'
            · exact hy2 rfl
          · rw [mem_insertSet]
            rintro (h' | h')
            · exact hyA' h'
            · exact hy3 (by omega)
  termination_by (units.toFinset ∪ litsF RF).card
  decreasing_by
    exact propLoop_measure (by assumption)

theorem eliminate_clause_sub {F : CNF} {A : List Int} :
    ∀ c' ∈ eliminate F A, ∃ c ∈ F, elimClause A c = some c' := by
  intro c' hc'
  rw [eliminate, List.mem_filterMap] at hc'
  exact hc'

theorem elimClause_some_mem {A : List Int} {c c' : Clause}
    (h : elimClause A c = some c') :
    ∀ x ∈ c', x ∈ c ∧ x ∉ A ∧ -x ∉ A := by
  induction c generalizing c' with
  | nil =>
    simp only [elimClause, Option.some.injEq] at h
    subst h
    simp
  | cons l ls ih =>
    rw [elimClause] at h
    split at h
    · exact absurd h (by simp)
    · split at h
      · rename_i hlA hnlA
        intro x hx
        obtain ⟨h1, h2, h3⟩ := ih h x hx
        exact ⟨List.mem_cons_of_mem _ h1, h2, h3⟩
      · rename_i hlA hnlA
        rw [Option.map_eq_some'] at h
        obtain ⟨c'', hc'', rfl⟩ := h
        intro x hx
        rcases List.mem_cons.mp hx with rfl | hx'
        · exact ⟨List.mem_cons_self _ _, hlA, hnlA⟩
        · obtain ⟨h1, h2, h3⟩ := ih hc'' x hx'
          exact ⟨List.mem_cons_of_mem _ h1, h2, h3⟩

theorem eliminate_flatten_sub {F : CNF} {A : List Int} :
    ∀ x ∈ (eliminate F A).flatten, x ∈ F.flatten := by
  intro x hx
  rw [List.mem_flatten] at hx ⊢
  obtain ⟨c', hc', hx⟩ := hx
  obtain ⟨c, hc, helim⟩ := eliminate_clause_sub c' hc'
  exact ⟨c, hc, (elimClause_some_mem helim x hx).1⟩

theorem eliminate_reduced {F : CNF} {A : List Int} :
    ∀ x ∈ (eliminate F A).flatten, x ∉ A ∧ -x ∉ A := by
  intro x hx
  rw [List.mem_flatten] at hx
  obtain ⟨c', hc', hx⟩ := hx
  obtain ⟨c, hc, helim⟩ := eliminate_clause_sub c' hc'
  exact (elimClause_some_mem helim x hx).2

theorem unitProp_sub {F : CNF} {A : List Int} {b : Bool} {RF' : CNF}
    {A' : List Int} (H : unitProp F A = (b, RF', A')) :
    (∀ x ∈ RF'.flatten, x ∈ F.flatten) ∧ (∀ a ∈ A, a ∈ A') ∧
      (∀ x ∈ RF'.flatten, x ∉ A' ∧ -x ∉ A') := by
  simp only [unitProp] at H
  obtain ⟨h1, h2, h3⟩ := propLoop_sub H
  exact ⟨fun x hx => eliminate_flatten_sub x (h1 x hx), h2,
    h3 (fun x hx => eliminate_reduced x hx)⟩

/-- Plain association-list lookup: Python `d[k]` / `k in d`. -/
def dlookup : List (Int × Nat) → Int → Option Nat
  | [], _ => none
  | (k, c) :: rest, k' => if k = k' then some c else dlookup rest k'

/-- Occurrence predicate counted by the positive dictionary: the literal `l`
is the positive literal `v` itself. -/
def isPosOcc (v l : Int) : Bool := decide (0 < l) && decide (l = v)

/-- Occurrence predicate counted by the negative dictionary: the literal `l`
is non-positive and its magnitude is `v`. -/
def isNegOcc (v l : Int) : Bool := !decide (0 < l) && decide (-l = v)

/-- Total number of positive occurrences of `v` over all clauses, counted
with multiplicity, as the counting loop of `choose_literal` accumulates it. -/
def posCount (F : CNF) (v : Int) : Nat := F.flatten.countP (isPosOcc v)

/-- Total number of non-positive occurrences of magnitude `v` over all
clauses, counted with multiplicity. -/
def negCount (F : CNF) (v : Int) : Nat := F.flatten.countP (isNegOcc v)

theorem dlookup_bump (d : List (Int × Nat)) (k k' : Int) :
    dlookup (bump d k) k' =
      if k' = k then some ((dlookup d k).getD 0 + 1) else dlookup d k' := by
  induction d with
  | nil =>
    by_cases h : k' = k
    · simp [bump, dlookup, h]
    · have h' : ¬k = k' := fun hk => h hk.symm
      simp [bump, dlookup, h, h']
  | cons e rest ih =>
    obtain ⟨a, c⟩ := e
    by_cases hak : a = k
    · subst hak
      by_cases hk : k' = a
      · subst hk
        simp [bump, dlookup]
      · have h' : ¬a = k' := fun hk' => hk hk'.symm
        simp [bump, dlookup, hk, h']
    · by_cases hak' : a = k'
      · subst hak'
        simp [bump, dlookup, hak]
      · simp [bump, dlookup, hak, hak', ih]

theorem countFold_lookup (L : List Int) (v : Int) :
    dlookup (L.foldl countStep ([], [])).1 v
        = (if L.countP (isPosOcc v) = 0 then none
           else some (L.countP (isPosOcc v))) ∧
      dlookup (L.foldl countStep ([], [])).2 v
        = (if L.countP (isNegOcc v) = 0 then none
           else some (L.countP (isNegOcc v))) := by
  induction L using List.reverseRecOn with
  | nil => simp [dlookup]
  | append_singleton L l ih =>
    obtain ⟨ih1, ih2⟩ := ih
    rw [List.foldl_append, List.foldl_cons, List.foldl_nil]
    by_cases hl : 0 < l
    · have hneg : isNegOcc v l = false := by simp [isNegOcc, hl]
      constructor
      · rw [countStep, if_pos hl, dlookup_bump, List.countP_append]
        by_cases hv : v = l
        · subst hv
          rw [if_pos rfl, ih1]
          have : List.countP (isPosOcc v) [v] = 1 := by
            simp [isPosOcc, hl]
          rw [this]
          by_cases h0 : List.countP (isPosOcc v) L = 0 <;> simp [h0]
        · have h' : ¬l = v := fun h => hv h.symm
          have : List.countP (isPosOcc v) [l] = 0 := by
            simp [isPosOcc, h']
          rw [if_neg hv, this, Nat.add_zero, ih1]
      · rw [countStep, if_pos hl, List.countP_append]
        have : List.countP (isNegOcc v) [l] = 0 := by simp [hneg]
        rw [this, Nat.add_zero]
        exact ih2
    · have hpos : isPosOcc v l = false := by simp [isPosOcc, hl]
      constructor
      · rw [countStep, if_neg hl, List.countP_append]
        have : List.countP (isPosOcc v) [l] = 0 := by simp [hpos]
        rw [this, Nat.add_zero]
        exact ih1
      · rw [countStep, if_neg hl, dlookup_bump, List.countP_append]
        by_cases hv : v = -l
        · subst hv
          rw [if_pos rfl, ih2]
          have : List.countP (isNegOcc (-l)) [l] = 1 := by
            simp [isNegOcc, hl]
          rw [this]
          by_cases h0 : List.countP (isNegOcc (-l)) L = 0 <;> simp [h0]
        · have h' : ¬-l = v := fun h => hv h.symm
          have : List.countP (isNegOcc v) [l] = 0 := by
            simp [isNegOcc, hl, h']
          rw [if_neg hv, this, Nat.add_zero, ih2]

theorem countDicts_eq_foldl (F : CNF) :
    countDicts F = F.flatten.foldl countStep ([], []) := by
  rw [countDicts, List.foldl_flatten]

theorem countDicts_lookup_pos (F : CNF) (v : Int) :
    dlookup (countDicts F).1 v
      = (if posCount F v = 0 then none else some (posCount F v)) := by
  rw [countDicts_eq_foldl, posCount]
  exact (countFold_lookup F.flatten v).1

theorem countDicts_lookup_neg (F : CNF) (v : Int) :
    dlookup (countDicts F).2 v
      = (if negCount F v = 0 then none else some (negCount F v)) := by
  rw [countDicts_eq_foldl, negCount]
  exact (countFold_lookup F.flatten v).2

theorem foldl_maxStep_mem {d : List (Int × Nat)} {acc : Option (Int × Nat)}
    {e : Int × Nat} (h : d.foldl maxStep acc = some e) :
    acc = some e ∨ e ∈ d := by
  induction d generalizing acc with
  | nil => exact Or.inl h
  | cons f fs ih =>
    rcases ih h with h' | h'
    · match acc, h' with
      | none, h' =>
        simp only [maxStep, Option.some.injEq] at h'
        subst h'
        exact Or.inr (List.mem_cons_self _ _)
      | some (k0, c0), h' =>
        simp only [maxStep] at h'
        split at h'
        · simp only [Option.some.injEq] at h'
          subst h'
          exact Or.inr (List.mem_cons_self _ _)
        · exact Or.inl h'
    · exact Or.inr (List.mem_cons_of_mem _ h')

theorem dlookup_ne_none_of_mem {d : List (Int × Nat)} {k : Int} {c : Nat}
    (h : (k, c) ∈ d) : dlookup d k ≠ none := by
  induction d with
  | nil => simp at h
  | cons e rest ih =>
    obtain ⟨a, b⟩ := e
    rcases List.mem_cons.mp h with h' | h'
    · simp only [Prod.mk.injEq] at h'
      obtain ⟨rfl, rfl⟩ := h'
      simp [dlookup]
    · rw [dlookup]
      split
      · simp
      · exact ih h'

theorem maxEntry_pos_occurs {F : CNF} {e : Int × Nat}
    (h : maxEntry (countDicts F).1 = some e) : e.1 ∈ F.flatten ∧ 0 < e.1 := by
  have hmem : e ∈ (countDicts F).1 := by
    rcases foldl_maxStep_mem h with h' | h'
    · exact absurd h' (by simp)
    · exact h'
  have hne := dlookup_ne_none_of_mem hmem
  rw [countDicts_lookup_pos] at hne
  have hcnt : posCount F e.1 ≠ 0 := by
    intro h0
    rw [if_pos h0] at hne
    exact hne rfl
  have := List.countP_pos.mp (Nat.pos_of_ne_zero hcnt)
  obtain ⟨l, hl, hp⟩ := this
  rw [isPosOcc, Bool.and_eq_true, decide_eq_true_eq, decide_eq_true_eq] at hp
  obtain ⟨h1, rfl⟩ := hp
  exact ⟨hl, h1⟩

theorem maxEntry_neg_occurs {F : CNF} {e : Int × Nat}
    (h : maxEntry (countDicts F).2 = some e) : -e.1 ∈ F.flatten := by
  have hmem : e ∈ (countDicts F).2 := by
    rcases foldl_maxStep_mem h with h' | h'
    · exact absurd h' (by simp)
    · exact h'
  have hne := dlookup_ne_none_of_mem hmem
  rw [countDicts_lookup_neg] at hne
  have hcnt : negCount F e.1 ≠ 0 := by
    intro h0
    rw [if_pos h0] at hne
    exact hne rfl
  have := List.countP_pos.mp (Nat.pos_of_ne_zero hcnt)
  obtain ⟨l, hl, hp⟩ := this
  rw [isNegOcc, Bool.and_eq_true, decide_eq_true_eq] at hp
  have : l = -e.1 := by omega
  rw [← this]
  exact hl

theorem chooseLit_mem {F : CNF} {d : Int} (h : chooseLit F = some d) :
    d ∈ F.flatten := by
  simp only [chooseLit] at h
  split at h
  · exact absurd h (by simp)
  · rename_i pe hp hn
    obtain rfl := by simpa using h
    exact (maxEntry_pos_occurs hp).1
  · rename_i ne hp hn
    obtain rfl := by simpa using h
    exact maxEntry_neg_occurs hn
  · rename_i pe ne hp hn
    split at h
    · obtain rfl := by simpa using h
      exact (maxEntry_pos_occurs hp).1
    · split at h
      · obtain rfl := by simpa using h
        exact maxEntry_neg_occurs hn
      · split at h
        · obtain rfl := by simpa using h
          exact (maxEntry_pos_occurs hp).1
        · obtain rfl := by simpa using h
          exact maxEntry_neg_occurs hn

theorem dpll_measure {F : CNF} {A A' : List Int} {res : Bool} {RF : CNF}
    {d b : Int} (hU : unitProp F A = (res, RF, A')) (hd : d ∈ RF.flatten)
    (hb : b = d ∨ b = -d) :
    (varsF RF \ avars (insertSet A' b)).card < (varsF F \ avars A).card := by
  obtain ⟨hsub, hA, hred⟩ := unitProp_sub hU
  have hbabs : b.natAbs = d.natAbs := by rcases hb with rfl | rfl <;> simp
  have havA : avars A ⊆ avars (insertSet A' b) := by
    intro x hx
    rw [avars, List.mem_toFinset, List.mem_map] at hx ⊢
    obtain ⟨a, ha, rfl⟩ := hx
    exact ⟨a, mem_insertSet.mpr (Or.inl (hA a ha)), rfl⟩
  have hvsub : varsF RF \ avars (insertSet A' b)
      ⊆ ((varsF F \ avars A)).erase d.natAbs := by
    intro x hx
    rw [Finset.mem_sdiff] at hx
    rw [Finset.mem_erase, Finset.mem_sdiff]
    refine ⟨?_, ?_, fun hxA => hx.2 (havA hxA)⟩
    · intro hxd
      apply hx.2
      rw [avars, List.mem_toFinset, List.mem_map]
      exact ⟨b, mem_insertSet.mpr (Or.inr rfl), by rw [hbabs, hxd]⟩
    · rw [varsF, List.mem_toFinset, List.mem_map] at hx ⊢
      obtain ⟨y, hy, rfl⟩ := hx.1
      exact ⟨y, hsub y hy, rfl⟩
  have hdmem : d.natAbs ∈ varsF F \ avars A := by
    rw [Finset.mem_sdiff]
    constructor
    · rw [varsF, List.mem_toFinset, List.mem_map]
      exact ⟨d, hsub d hd, rfl⟩
    · intro hmem
      rw [avars, List.mem_toFinset, List.mem_map] at hmem
      obtain ⟨a, ha, habs⟩ := hmem
      have had : a = d ∨ a = -d := Int.natAbs_eq_natAbs_iff.mp habs
      obtain ⟨hd1, hd2⟩ := hred d hd
      rcases had with rfl | rfl
      · exact hd1 (hA _ ha)
      · exact hd2 (hA _ ha)
  calc (varsF RF \ avars (insertSet A' b)).card
      ≤ ((varsF F \ avars A).erase d.natAbs).card := Finset.card_le_card hvsub
    _ < (varsF F \ avars A).card := Finset.card_erase_lt_of_mem hdmem

/-- `DPLL.dpll`: runs unit propagation; records the sorted model and answers
satisfiable when the clause list is exhausted; answers unsatisfiable on a
propagation conflict; otherwise decides a literal and recurses on both
polarities.  `some (some M)` is `True` with recorded model `M`,
`some none` is `False`, and `none` is the uncaught exception raised by
`choose_literal` on a clause list without literals. -/
def dpllF (F : CNF) (A : List Int) : Option (Option (List Int)) :=
  match hU : unitProp F A with
  | (res, RF, A') =>
    if RF = [] ∧ res = true then some (some (sortByAbs A'))
    else if res = false then some none
    else
      match hC : chooseLit RF with
      | none => none
      | some d =>
        match dpllF RF (insertSet A' d) with
        | none => none
        | some (some M) => some (some M)
        | some none =>
          match dpllF RF (insertSet A' (-d)) with
          | none => none
          | some (some M) => some (some M)
          | some none => some none
  termination_by (varsF F \ avars A).card
  decreasing_by
    · exact dpll_measure hU (chooseLit_mem hC) (Or.inl rfl)
    · exact dpll_measure hU (chooseLit_mem hC) (Or.inr rfl)

/-- Splitting a character list at every newline. -/
def splitNl : List Char → List (List Char)
  | [] => [[]]
  | c :: cs =>
    if c = '\n' then [] :: splitNl cs
    else
      match splitNl cs with
      | [] => [[c]]
      | g :: gs => (c :: g) :: gs

/-- Python `str.splitlines` restricted to `\n` separators (the only line
separator the claims' inputs use): a trailing newline does not produce a
final empty line, and the empty string has no lines. -/
def pySplitlines (s : String) : List String :=
  let ps := (splitNl s.toList).map (fun cs => String.mk cs)
  if ps.getLast? = some "" then ps.dropLast else ps

/-- Splitting a character list on runs of whitespace, dropping empty runs;
the first argument accumulates the current token reversed. -/
def splitWs (acc : List Char) : List Char → List (List Char)
  | [] => if acc = [] then [] else [acc.reverse]
  | c :: cs =>
    if c.isWhitespace then
      if acc = [] then splitWs [] cs else acc.reverse :: splitWs [] cs
    else splitWs (c :: acc) cs

/-- Python `str.split()` with no arguments: split on runs of whitespace,
discarding empty pieces. -/
def pySplit (s : String) : List String :=
  (splitWs [] s.toList).map (fun cs => String.mk cs)

/-- Value of a non-empty all-digit character list. -/
def digitsVal (ds : List Char) : Option Nat :=
  ds.foldl
    (fun acc c =>
      match acc with
      | none => none
      | some n => if c.isDigit then some (n * 10 + (c.toNat - 48)) else none)
    (if ds = [] then none else some 0)

/-- Python `int(...)` on a token already free of whitespace: an optional
sign followed by decimal digits; `none` models the raised `ValueError`. -/
def parseIntTok (s : String) : Option Int :=
  match s.toList with
  | '-' :: ds => (digitsVal ds).map (fun n => -(n : Int))
  | '+' :: ds => (digitsVal ds).map (fun n => (n : Int))
  | ds => (digitsVal ds).map (fun n => (n : Int))

/-- `DPLL.read_clauses`: skips empty lines, comment lines starting with `c`
and the `p` header; every other line is split, its last token (the `0`
sentinel position) is dropped, and the remaining tokens are read as integer
literals.  `none` models an `int(...)` failure on a malformed token. -/
def readLine (F : CNF) (line : String) : Option CNF :=
  if line = "" ∨ line.front = 'c' then some F
  else if line.front = 'p' then some F
  else
    match ((pySplit line).dropLast).mapM parseIntTok with
    | none => none
    | some lits => some (F ++ [lits])

def readClauses (s : String) : Option CNF :=
  (pySplitlines s).foldlM readLine []

/-- `DPLL.solve`: reinitialises the state, reads the clauses and runs the
DPLL search on them with the empty assignment.  `none` is an uncaught
exception (from parsing or from `choose_literal`); `some (some M)` is the
`True` answer with the recorded model retrievable as `M`; `some none` is the
`False` answer. -/
def solve (s : String) : Option (Option (List Int)) :=
  match readClauses s with
  | none => none
  | some F => dpllF F []

/-! ## Semantics of CNF clause lists

A valuation assigns a truth value to every positive id; a literal is true
when its id is true and the literal positive, or its id false and the literal
non-positive.  A clause is a disjunction, a clause list a conjunction. -/

/-- Truth value of the literal `l` under the valuation `w`. -/
def litVal (w : Int → Bool) (l : Int) : Bool := if 0 < l then w l else !(w (-l))

/-- A clause is a disjunction of its literals. -/
def clauseVal (w : Int → Bool) (c : Clause) : Bool := c.any (litVal w)

/-- A clause list is a conjunction of its clauses. -/
def cnfVal (w : Int → Bool) (F : CNF) : Bool := F.all (clauseVal w)

/-- Satisfiability of a clause list. -/
def Sat (F : CNF) : Prop := ∃ w, cnfVal w F = true

/-- The valuation `w` makes every literal of the set `A` true. -/
def Agrees (w : Int → Bool) (A : List Int) : Prop := ∀ a ∈ A, litVal w a = true

/-- No literal occurs together with its negation (`0` is its own negation
and is not a literal in the sense of the data model). -/
def Consistent (A : List Int) : Prop := ∀ l ∈ A, l ≠ 0 → -l ∉ A

/-- Clause satisfaction by a literal set: some literal of the clause is a
member of the set. -/
def satBy (A : List Int) (c : Clause) : Prop := ∃ l ∈ c, l ∈ A

theorem litVal_neg (w : Int → Bool) {l : Int} (hl : l ≠ 0) :
    litVal w (-l) = !(litVal w l) := by
  by_cases h : 0 < l
  · have h' : ¬0 < -l := by omega
    rw [litVal, if_neg h', neg_neg, litVal, if_pos h]
  · have h' : 0 < -l := by omega
    rw [litVal, if_pos h', litVal, if_neg h, Bool.not_not]

theorem clauseVal_of_mem {w : Int → Bool} {c : Clause} {l : Int}
    (hl : l ∈ c) (hv : litVal w l = true) : clauseVal w c = true := by
  rw [clauseVal, List.any_eq_true]
  exact ⟨l, hl, hv⟩

theorem cnfVal_mem {w : Int → Bool} {F : CNF} (h : cnfVal w F = true) :
    ∀ c ∈ F, clauseVal w c = true := by
  rw [cnfVal, List.all_eq_true] at h
  exact h

theorem elimClause_none {A : List Int} {c : Clause}
    (h : elimClause A c = none) : ∃ l ∈ c, l ∈ A := by
  induction c with
  | nil => simp [elimClause] at h
  | cons l ls ih =>
    rw [elimClause] at h
    split at h
    · exact ⟨l, List.mem_cons_self _ _, by assumption⟩
    · split at h
      · obtain ⟨x, hx, hxA⟩ := ih h
        exact ⟨x, List.mem_cons_of_mem _ hx, hxA⟩
      · rw [Option.map_eq_none'] at h
        obtain ⟨x, hx, hxA⟩ := ih h
        exact ⟨x, List.mem_cons_of_mem _ hx, hxA⟩

theorem elimClause_some_sem {w : Int → Bool} {A : List Int} {c c' : Clause}
    (hw : Agrees w A) (h : elimClause A c = some c') :
    clauseVal w c = clauseVal w c' := by
  induction c generalizing c' with
  | nil =>
    simp only [elimClause, Option.some.injEq] at h
    subst h
    rfl
  | cons l ls ih =>
    rw [elimClause] at h
    split at h
    · exact absurd h (by simp)
    · split at h
      · rename_i hlA hnlA
        have hl0 : l ≠ 0 := by
          intro h0
          subst h0
          exact hlA (by simpa using hnlA)
        have hfalse : litVal w l = false := by
          have := hw (-l) hnlA
          rw [litVal_neg w hl0, Bool.not_eq_true'] at this
          exact this
        rw [clauseVal, List.any_cons, hfalse, Bool.false_or, ← clauseVal, ih h]
      · rw [Option.map_eq_some'] at h
        obtain ⟨c'', hc'', rfl⟩ := h
        rw [clauseVal, List.any_cons, clauseVal, List.any_cons, ← clauseVal,
          ← clauseVal, ih hc'']

theorem eliminate_sem {w : Int → Bool} {A : List Int} {F : CNF}
    (hw : Agrees w A) : cnfVal w F = cnfVal w (eliminate F A) := by
  induction F with
  | nil => rfl
  | cons c F' ih =>
    rw [eliminate, List.filterMap_cons]
    split
    · rename_i hnone
      obtain ⟨l, hl, hlA⟩ := elimClause_none hnone
      have : clauseVal w c = true := clauseVal_of_mem hl (hw l hlA)
      rw [cnfVal, List.all_cons, this, Bool.true_and, ← cnfVal, ih, eliminate]
    · rename_i c' hsome
      rw [cnfVal, List.all_cons, cnfVal, List.all_cons, ← cnfVal, ← cnfVal,
        ih, elimClause_some_sem hw hsome, eliminate]

theorem clauseVal_stripLit {w : Int → Bool} {A : List Int} {l : Int}
    {c : Clause} (hw : Agrees w A) (hl : l ∈ A) (hmem : l ∉ c) :
    clauseVal w (stripLit l c) = clauseVal w c := by
  induction c with
  | nil => rfl
  | cons x ls ih =>
    have ihx := ih (fun h => hmem (List.mem_cons_of_mem _ h))
    rw [clauseVal, clauseVal] at ihx
    by_cases hx : x = -l
    · have hxl : x ≠ l := fun h => hmem (h ▸ List.mem_cons_self _ _)
      have hl0 : l ≠ 0 := by omega
      have hxfalse : litVal w x = false := by
        rw [hx, litVal_neg w hl0, hw l hl]
        rfl
      have hs : stripLit l (x :: ls) = stripLit l ls := by
        simp [stripLit, hx]
      rw [hs, clauseVal, clauseVal, List.any_cons, hxfalse, Bool.false_or]
      exact ihx
    · have hs : stripLit l (x :: ls) = x :: stripLit l ls := by
        simp [stripLit, List.filter_cons, hx]
      rw [hs, clauseVal, clauseVal, List.any_cons, List.any_cons, ihx]

theorem propPass_none_sem {w : Int → Bool} {A : List Int} {l : Int} {F : CNF}
    (hw : Agrees w A) (hl : l ∈ A) (h : propPass l F = none) :
    cnfVal w F = false := by
  induction F with
  | nil => simp [propPass] at h
  | cons c cs ih =>
    rw [propPass] at h
    split at h
    · rename_i hmem
      have : clauseVal w c = true := clauseVal_of_mem hmem (hw l hl)
      rw [cnfVal, List.all_cons, this, Bool.true_and, ← cnfVal]
      exact ih h
    · rename_i hmem
      split at h
      · rename_i hstrip
        have : clauseVal w c = false := by
          rw [← clauseVal_stripLit hw hl hmem, hstrip]
          rfl
        rw [cnfVal, List.all_cons, this, Bool.false_and]
      · split at h
        · rename_i heq
          rw [cnfVal, List.all_cons, ← cnfVal, ih heq, Bool.and_false]
        · exact absurd h (by simp)

theorem mem_foldl_insertSet_left {us s : List Int} {x : Int} (h : x ∈ s) :
    x ∈ us.foldl insertSet s := by
  induction us generalizing s with
  | nil => exact h
  | cons u us ih => exact ih (mem_insertSet.mpr (Or.inl h))

theorem mem_foldl_insertSet_right {us : List Int} {x : Int} (h : x ∈ us) :
    ∀ s, x ∈ us.foldl insertSet s := by
  induction us with
  | nil => simp at h
  | cons u us ih =>
    intro s
    rw [List.foldl_cons]
    rcases List.mem_cons.mp h with rfl | h'
    · exact mem_foldl_insertSet_left (mem_insertSet.mpr (Or.inr rfl))
    · exact ih h' _

theorem eq_singleton_of_len_one {c : List Int} {u : Int}
    (hlen : c.length = 1) (hu : u ∈ c) : c = [u] := by
  match c with
  | [x] =>
    obtain rfl : u = x := by simpa using hu
    rfl

theorem propPass_units {l : Int} {F F' : CNF} {us : List Int}
    (h : propPass l F = some (F', us)) : ∀ u ∈ us, [u] ∈ F' := by
  induction F generalizing F' us with
  | nil =>
    simp only [propPass, Option.some.injEq, Prod.mk.injEq] at h
    obtain ⟨rfl, rfl⟩ := h
    simp
  | cons c cs ih =>
    rw [propPass] at h
    split at h
    · exact ih h
    · split at h
      · exact absurd h (by simp)
      · split at h
        · exact absurd h (by simp)
        · rename_i cs' us' heq
          obtain ⟨rfl, rfl⟩ := by
            simpa only [Option.some.injEq, Prod.mk.injEq] using h
          intro u hu
          rw [List.mem_append] at hu
          rcases hu with hu | hu
          · split at hu
            · rename_i hlen
              have := eq_singleton_of_len_one hlen hu
              rw [← this]
              exact List.mem_cons_self _ _
            · exact absurd hu (by simp)
          · exact List.mem_cons_of_mem _ (ih heq u hu)

theorem propPass_clause {l : Int} {F F' : CNF} {us : List Int}
    (h : propPass l F = some (F', us)) :
    ∀ c ∈ F, l ∉ c → stripLit l c ≠ [] ∧ stripLit l c ∈ F' := by
  induction F generalizing F' us with
  | nil => simp
  | cons c₀ cs ih =>
    rw [propPass] at h
    split at h
    · rename_i hmem
      intro c hc hlc
      rcases List.mem_cons.mp hc with rfl | hc'
      · exact absurd hmem hlc
      · exact ih h c hc' hlc
    · split at h
      · exact absurd h (by simp)
      · rename_i hne
        split at h
        · exact absurd h (by simp)
        · rename_i cs' us' heq
          obtain ⟨rfl, rfl⟩ := by
            simpa only [Option.some.injEq, Prod.mk.injEq] using h
          intro c hc hlc
          rcases List.mem_cons.mp hc with rfl | hc'
          · exact ⟨hne, List.mem_cons_self _ _⟩
          · obtain ⟨h1, h2⟩ := ih heq c hc' hlc
            exact ⟨h1, List.mem_cons_of_mem _ h2⟩

theorem propPass_len1 {l : Int} {F F' : CNF} {us : List Int}
    (h : propPass l F = some (F', us)) :
    ∀ c ∈ F', c.length = 1 → ∀ u ∈ c, u ∈ us := by
  induction F generalizing F' us with
  | nil =>
    simp only [propPass, Option.some.injEq, Prod.mk.injEq] at h
    obtain ⟨rfl, rfl⟩ := h
    simp
  | cons c₀ cs ih =>
    rw [propPass] at h
    split at h
    · exact ih h
    · split at h
      · exact absurd h (by simp)
      · split at h
        · exact absurd h (by simp)
        · rename_i cs' us' heq
          obtain ⟨rfl, rfl⟩ := by
            simpa only [Option.some.injEq, Prod.mk.injEq] using h
          intro c hc hlen u hu
          rw [List.mem_append]
          rcases List.mem_cons.mp hc with rfl | hc'
          · rw [if_pos hlen]
            exact Or.inl hu
          · exact Or.inr (ih heq c hc' hlen u hu)

theorem propPass_some_sem {w : Int → Bool} {A : List Int} {l : Int}
    {F F' : CNF} {us : List Int} (hw : Agrees w A) (hl : l ∈ A)
    (h : propPass l F = some (F', us)) : cnfVal w F = cnfVal w F' := by
  induction F generalizing F' us with
  | nil =>
    simp only [propPass, Option.some.injEq, Prod.mk.injEq] at h
    obtain ⟨rfl, rfl⟩ := h
    rfl
  | cons c cs ih =>
    rw [propPass] at h
    split at h
    · rename_i hmem
      have : clauseVal w c = true := clauseVal_of_mem hmem (hw l hl)
      rw [cnfVal, List.all_cons, this, Bool.true_and, ← cnfVal]
      exact ih h
    · rename_i hmem
      split at h
      · exact absurd h (by simp)
      · split at h
        · exact absurd h (by simp)
        · rename_i cs' us' heq
          obtain ⟨rfl, rfl⟩ := by
            simpa only [Option.some.injEq, Prod.mk.injEq] using h
          rw [cnfVal, List.all_cons, cnfVal, List.all_cons, ← cnfVal,
            ← cnfVal, ih heq, clauseVal_stripLit hw hl hmem]

theorem propLoop_sem {units : List Int} {RF : CNF} {A : List Int}
    {b : Bool} {RF' : CNF} {A' : List Int} {w : Int → Bool}
    (H : propLoop units RF A = (b, RF', A'))
    (hun : ∀ u ∈ units, [u] ∈ RF)
    (hA : Agrees w A) (hRF : cnfVal w RF = true) :
    Agrees w A' ∧ b = true ∧ cnfVal w RF' = true := by
  match units with
  | [] =>
    rw [propLoop] at H
    obtain ⟨rfl, rfl, rfl⟩ := by simpa using H
    exact ⟨hA, rfl, hRF⟩
  | l :: rest =>
    rw [propLoop] at H
    split at H
    · obtain ⟨rfl, rfl, rfl⟩ := by simpa using H
      exact ⟨hA, rfl, hRF⟩
    · rename_i hRFne
      have hll : litVal w l = true := by
        have h1 := hun l (List.mem_cons_self _ _)
        have h2 := cnfVal_mem hRF _ h1
        rw [clauseVal] at h2
        simpa using h2
      have hA2 : Agrees w (insertSet A l) := by
        intro a ha
        rcases mem_insertSet.mp ha with ha' | rfl
        · exact hA a ha'
        · exact hll
      have hlmem : l ∈ insertSet A l := mem_insertSet.mpr (Or.inr rfl)
      split at H
      · rename_i h
        have hfalse := propPass_none_sem hA2 hlmem h
        rw [hRF] at hfalse
        exact absurd hfalse (by simp)
      · rename_i RF'' us h
        have hsat : cnfVal w RF'' = true := by
          rw [← propPass_some_sem hA2 hlmem h]
          exact hRF
        refine propLoop_sem H ?_ hA2 hsat
        intro u hu
        rcases mem_foldl_insertSet hu with hu' | hu'
        · rw [List.mem_filter, decide_eq_true_eq] at hu'
          have h1 := hun u (List.mem_cons_of_mem _ hu'.1)
          have hnot : l ∉ [u] := by
            simp only [List.mem_singleton]
            exact fun hul => hu'.2 hul.symm
          obtain ⟨hne, hmem⟩ := propPass_clause h _ h1 hnot
          have hstrip : stripLit l [u] = [u] := by
            by_cases hul : u = -l
            · exact absurd (by simp [stripLit, hul]) hne
            · simp [stripLit, hul]
          rw [hstrip] at hmem
          exact hmem
        · exact propPass_units h u hu'
  termination_by (units.toFinset ∪ litsF RF).card
  decreasing_by
    exact propLoop_measure (by assumption)

theorem propLoop_cov {units : List Int} {RF : CNF} {A : List Int}
    {b : Bool} {RF' : CNF} {A' : List Int}
    (H : propLoop units RF A = (b, RF', A')) (hb : b = true) :
    ∀ c ∈ RF, (∃ l ∈ c, l ∈ A') ∨ ∃ c' ∈ RF', ∀ x ∈ c', x ∈ c := by
  match units with
  | [] =>
    rw [propLoop] at H
    obtain ⟨rfl, rfl, rfl⟩ := by simpa using H
    exact fun c hc => Or.inr ⟨c, hc, fun x hx => hx⟩
  | l :: rest =>
    rw [propLoop] at H
    split at H
    · obtain ⟨rfl, rfl, rfl⟩ := by simpa using H
      exact fun c hc => Or.inr ⟨c, hc, fun x hx => hx⟩
    · split at H
      · obtain ⟨rfl, rfl, rfl⟩ := by simpa using H
        simp at hb
      · rename_i RF'' us h
        intro c hc
        have hA'mono : ∀ a ∈ insertSet A l, a ∈ A' := (propLoop_sub H).2.1
        by_cases hlc : l ∈ c
        · exact Or.inl ⟨l, hlc, hA'mono l (mem_insertSet.mpr (Or.inr rfl))⟩
        · obtain ⟨hne, hmem⟩ := propPass_clause h c hc hlc
          rcases propLoop_cov H hb _ hmem with ⟨x, hx, hxA⟩ | ⟨c', hc', hsub⟩
          · exact Or.inl ⟨x, (mem_stripLit.mp hx).1, hxA⟩
          · exact Or.inr ⟨c', hc', fun x hx => (mem_stripLit.mp (hsub x hx)).1⟩
  termination_by (units.toFinset ∪ litsF RF).card
  decreasing_by
    exact propLoop_measure (by assumption)

theorem propLoop_false {units : List Int} {RF : CNF} {A : List Int}
    {RF' : CNF} {A' : List Int}
    (H : propLoop units RF A = (false, RF', A')) : RF' = [] := by
  match units with
  | [] =>
    rw [propLoop] at H
    exact absurd (congrArg Prod.fst H) (by simp)
  | l :: rest =>
    rw [propLoop] at H
    split at H
    · exact absurd (congrArg Prod.fst H) (by simp)
    · split at H
      · exact (congrArg (fun t => t.2.1) H).symm
      · exact propLoop_false H
  termination_by (units.toFinset ∪ litsF RF).card
  decreasing_by
    exact propLoop_measure (by assumption)

theorem propLoop_nounit {units : List Int} {RF : CNF} {A : List Int}
    {b : Bool} {RF' : CNF} {A' : List Int}
    (H : propLoop units RF A = (b, RF', A'))
    (hrev : ∀ c ∈ RF, c.length = 1 → ∀ u ∈ c, u ∈ units) :
    ∀ c ∈ RF', c.length ≠ 1 := by
  match units with
  | [] =>
    rw [propLoop] at H
    obtain ⟨rfl, rfl, rfl⟩ := by simpa using H
    intro c hc hlen
    match c, hlen with
    | [u], _ =>
      exact (List.not_mem_nil u) (hrev [u] hc rfl u (List.mem_cons_self _ _))
  | l :: rest =>
    rw [propLoop] at H
    split at H
    · rename_i hRFnil
      obtain ⟨rfl, rfl, rfl⟩ := by simpa using H
      intro c hc
      rw [hRFnil] at hc
      simp at hc
    · split at H
      · have h2 : RF' = [] := (congrArg (fun t => t.2.1) H).symm
        rw [h2]
        simp
      · rename_i RF'' us h
        refine propLoop_nounit H ?_
        intro c hc hlen u hu
        have := propPass_len1 h c hc hlen u hu
        exact mem_foldl_insertSet_right this _
  termination_by (units.toFinset ∪ litsF RF).card
  decreasing_by
    exact propLoop_measure (by assumption)

theorem insertSet_consistent {A : List Int} {x : Int} (hc : Consistent A)
    (h1 : x ∉ A) (h2 : -x ∉ A) : Consistent (insertSet A x) := by
  intro l hl hl0 hnl
  rcases mem_insertSet.mp hl with hlA | rfl
  · rcases mem_insertSet.mp hnl with hnlA | hnlx
    · exact hc l hlA hl0 hnlA
    · exact h2 (by rw [← hnlx, neg_neg]; exact hlA)
  · rcases mem_insertSet.mp hnl with hnlA | hnlx
    · exact h2 hnlA
    · omega

theorem propLoop_consistent {units : List Int} {RF : CNF} {A : List Int}
    {b : Bool} {RF' : CNF} {A' : List Int}
    (H : propLoop units RF A = (b, RF', A'))
    (hcons : Consistent A)
    (hred : ∀ x ∈ RF.flatten, x ∉ A ∧ -x ∉ A)
    (hun : ∀ u ∈ units, [u] ∈ RF) :
    Consistent A' := by
  match units with
  | [] =>
    rw [propLoop] at H
    obtain ⟨rfl, rfl, rfl⟩ := by simpa using H
    exact hcons
  | l :: rest =>
    rw [propLoop] at H
    split at H
    · obtain ⟨rfl, rfl, rfl⟩ := by simpa using H
      exact hcons
    · have hlRF : l ∈ RF.flatten := by
        rw [List.mem_flatten]
        exact ⟨[l], hun l (List.mem_cons_self _ _), by simp⟩
      obtain ⟨hlA, hnlA⟩ := hred l hlRF
      have hcons2 : Consistent (insertSet A l) := insertSet_consistent hcons hlA hnlA
      split at H
      · obtain ⟨-, -, h⟩ := by simpa using H
        rw [← h]
        exact hcons2
      · rename_i RF'' us h
        refine propLoop_consistent H hcons2 ?_ ?_
        · intro y hy
          obtain ⟨hy1, hy2, hy3⟩ := (propPass_some h).1 y hy
          obtain ⟨hyA, hyA'⟩ := hred y hy1
          constructor
          · rw [mem_insertSet]
            rintro (h' | rfl)
            · exact hyA h'
            · exact hy2 rfl
          · rw [mem_insertSet]
            rintro (h' | h')
            · exact hyA' h'
            · exact hy3 (by omega)
        · intro u hu
          rcases mem_foldl_insertSet hu with hu' | hu'
          · rw [List.mem_filter, decide_eq_true_eq] at hu'
            have h1 := hun u (List.mem_cons_of_mem _ hu'.1)
            have hnot : l ∉ [u] := by
              simp only [List.mem_singleton]
              exact fun hul => hu'.2 hul.symm
            obtain ⟨hne, hmem⟩ := propPass_clause h _ h1 hnot
            have hstrip : stripLit l [u] = [u] := by
              by_cases hul : u = -l
              · exact absurd (by simp [stripLit, hul]) hne
              · simp [stripLit, hul]
            rw [hstrip] at hmem
            exact hmem
          · exact propPass_units h u hu'
  termination_by (units.toFinset ∪ litsF RF).card
  decreasing_by
    exact propLoop_measure (by assumption)

/-- The collection of initial unit literals in `unit_propagation`. -/
theorem mem_units_init {RF : CNF} {s : List Int} {u : Int}
    (h : u ∈ RF.foldl
      (fun s c => match c with | [x] => insertSet s x | _ => s) s) :
    u ∈ s ∨ [u] ∈ RF := by
  induction RF generalizing s with
  | nil => exact Or.inl h
  | cons c cs ih =>
    rw [List.foldl_cons] at h
    rcases ih h with h' | h'
    · match c, h' with
      | [], h' => exact Or.inl h'
      | [x], h' =>
        rcases mem_insertSet.mp h' with h'' | rfl
        · exact Or.inl h''
        · exact Or.inr (List.mem_cons_self _ _)
      | x :: y :: t, h' => exact Or.inl h'
    · exact Or.inr (List.mem_cons_of_mem _ h')

theorem units_init_fold_mono {RF : CNF} {s : List Int} {u : Int} (h : u ∈ s) :
    u ∈ RF.foldl
      (fun s c => match c with | [x] => insertSet s x | _ => s) s := by
  induction RF generalizing s with
  | nil => exact h
  | cons c cs ih =>
    rw [List.foldl_cons]
    refine ih ?_
    match c with
    | [] => exact h
    | [x] => exact mem_insertSet.mpr (Or.inl h)
    | x :: y :: t => exact h

theorem units_init_complete {RF : CNF} {s : List Int} {u : Int}
    (h : [u] ∈ RF) :
    u ∈ RF.foldl
      (fun s c => match c with | [x] => insertSet s x | _ => s) s := by
  induction RF generalizing s with
  | nil => simp at h
  | cons c cs ih =>
    rw [List.foldl_cons]
    rcases List.mem_cons.mp h with h' | h'
    · rw [← h']
      exact units_init_fold_mono (mem_insertSet.mpr (Or.inr rfl))
    · exact ih h'

theorem unitProp_sem {F : CNF} {A : List Int} {b : Bool} {RF' : CNF}
    {A' : List Int} {w : Int → Bool} (H : unitProp F A = (b, RF', A'))
    (hA : Agrees w A) (hF : cnfVal w F = true) :
    Agrees w A' ∧ b = true ∧ cnfVal w RF' = true := by
  simp only [unitProp] at H
  refine propLoop_sem H ?_ hA ?_
  · intro u hu
    rcases mem_units_init hu with h' | h'
    · simp at h'
    · exact h'
  · rw [← eliminate_sem hA]
    exact hF

theorem unitProp_cov {F : CNF} {A : List Int} {b : Bool} {RF' : CNF}
    {A' : List Int} (H : unitProp F A = (b, RF', A')) (hb : b = true) :
    ∀ c ∈ F, (∃ l ∈ c, l ∈ A') ∨ ∃ c' ∈ RF', ∀ x ∈ c', x ∈ c := by
  simp only [unitProp] at H
  intro c hc
  match helim : elimClause A c with
  | none =>
    obtain ⟨l, hl, hlA⟩ := elimClause_none helim
    exact Or.inl ⟨l, hl, (propLoop_sub H).2.1 l hlA⟩
  | some c₁ =>
    have hc₁ : c₁ ∈ eliminate F A := by
      rw [eliminate, List.mem_filterMap]
      exact ⟨c, hc, helim⟩
    rcases propLoop_cov H hb c₁ hc₁ with ⟨l, hl, hlA⟩ | ⟨c', hc', hsub⟩
    · exact Or.inl ⟨l, (elimClause_some_mem helim l hl).1, hlA⟩
    · exact Or.inr ⟨c', hc',
        fun x hx => (elimClause_some_mem helim x (hsub x hx)).1⟩

theorem unitProp_false {F : CNF} {A : List Int} {RF' : CNF} {A' : List Int}
    (H : unitProp F A = (false, RF', A')) : RF' = [] := by
  simp only [unitProp] at H
  exact propLoop_false H

theorem unitProp_nounit {F : CNF} {A : List Int} {b : Bool} {RF' : CNF}
    {A' : List Int} (H : unitProp F A = (b, RF', A')) :
    ∀ c ∈ RF', c.length ≠ 1 := by
  simp only [unitProp] at H
  refine propLoop_nounit H ?_
  intro c hc hlen u hu
  obtain rfl := eq_singleton_of_len_one hlen hu
  exact units_init_complete hc

theorem unitProp_consistent {F : CNF} {A : List Int} {b : Bool} {RF' : CNF}
    {A' : List Int} (H : unitProp F A = (b, RF', A'))
    (hcons : Consistent A) : Consistent A' := by
  simp only [unitProp] at H
  refine propLoop_consistent H hcons (fun x hx => eliminate_reduced x hx) ?_
  intro u hu
  rcases mem_units_init hu with h' | h'
  · simp at h'
  · exact h'

theorem mem_sortByAbs {A : List Int} {x : Int} :
    x ∈ sortByAbs A ↔ x ∈ A := by
  rw [sortByAbs]
  exact (List.perm_insertionSort _ A).mem_iff

theorem dpll_sound {F : CNF} {A M : List Int}
    (H : dpllF F A = some (some M)) :
    (∀ a ∈ A, a ∈ M) ∧ ∀ c ∈ F, satBy M c := by
  rw [dpllF] at H
  split at H
  rename_i res RF A2 hU
  split at H
  · rename_i hend
    obtain ⟨hRFnil, hres⟩ := hend
    have hM : sortByAbs A2 = M := by simpa using H
    have hmemM : ∀ x ∈ A2, x ∈ M := by
      intro x hx
      rw [← hM]
      exact mem_sortByAbs.mpr hx
    constructor
    · exact fun a ha => hmemM a ((unitProp_sub hU).2.1 a ha)
    · intro c hc
      rcases unitProp_cov hU hres c hc with ⟨l, hl, hlA⟩ | ⟨c', hc', hsub⟩
      · exact ⟨l, hl, hmemM l hlA⟩
      · rw [hRFnil] at hc'
        simp at hc'
  · rename_i hnotend
    split at H
    · exact absurd H (by simp)
    · rename_i hnotfalse
      have hres : res = true := by
        cases res
        · exact absurd rfl hnotfalse
        · rfl
      split at H
      · exact absurd H (by simp)
      · rename_i d hC
        have hAmono : ∀ a ∈ A, a ∈ A2 := (unitProp_sub hU).2.1
        split at H
        · exact absurd H (by simp)
        · rename_i M' hrec
          have hM : M' = M := by simpa using H
          subst hM
          obtain ⟨ih1, ih2⟩ := dpll_sound hrec
          constructor
          · exact fun a ha =>
              ih1 a (mem_insertSet.mpr (Or.inl (hAmono a ha)))
          · intro c hc
            rcases unitProp_cov hU hres c hc with ⟨l, hl, hlA⟩ | ⟨c', hc', hsub⟩
            · exact ⟨l, hl, ih1 l (mem_insertSet.mpr (Or.inl hlA))⟩
            · obtain ⟨l, hl, hlM⟩ := ih2 c' hc'
              exact ⟨l, hsub l hl, hlM⟩
        · rename_i hrec1
          split at H
          · exact absurd H (by simp)
          · rename_i M' hrec
            have hM : M' = M := by simpa using H
            subst hM
            obtain ⟨ih1, ih2⟩ := dpll_sound hrec
            constructor
            · exact fun a ha =>
                ih1 a (mem_insertSet.mpr (Or.inl (hAmono a ha)))
            · intro c hc
              rcases unitProp_cov hU hres c hc with ⟨l, hl, hlA⟩ | ⟨c', hc', hsub⟩
              · exact ⟨l, hl, ih1 l (mem_insertSet.mpr (Or.inl hlA))⟩
              · obtain ⟨l, hl, hlM⟩ := ih2 c' hc'
                exact ⟨l, hsub l hl, hlM⟩
          · exact absurd H (by simp)
  termination_by (varsF F \ avars A).card
  decreasing_by
    · exact dpll_measure (by assumption) (chooseLit_mem (by assumption))
        (Or.inl rfl)
    · exact dpll_measure (by assumption) (chooseLit_mem (by assumption))
        (Or.inr rfl)

theorem dpll_consistent {F : CNF} {A M : List Int}
    (H : dpllF F A = some (some M)) (hcons : Consistent A) :
    Consistent M := by
  rw [dpllF] at H
  split at H
  rename_i res RF A2 hU
  have hcons2 : Consistent A2 := unitProp_consistent hU hcons
  split at H
  · have hM : sortByAbs A2 = M := by simpa using H
    intro l hl hl0 hnl
    rw [← hM, mem_sortByAbs] at hl hnl
    exact hcons2 l hl hl0 hnl
  · split at H
    · exact absurd H (by simp)
    · split at H
      · exact absurd H (by simp)
      · rename_i d hC
        have hd := chooseLit_mem hC
        obtain ⟨hd1, hd2⟩ := (unitProp_sub hU).2.2 d hd
        have hcons3 : Consistent (insertSet A2 d) :=
          insertSet_consistent hcons2 hd1 hd2
        have hcons4 : Consistent (insertSet A2 (-d)) := by
          refine insertSet_consistent hcons2 hd2 ?_
          rw [neg_neg]
          exact hd1
        split at H
        · exact absurd H (by simp)
        · rename_i M' hrec
          have hM : M' = M := by simpa using H
          subst hM
          exact dpll_consistent hrec hcons3
        · split at H
          · exact absurd H (by simp)
          · rename_i M' hrec
            have hM : M' = M := by simpa using H
            subst hM
            exact dpll_consistent hrec hcons4
          · exact absurd H (by simp)
  termination_by (varsF F \ avars A).card
  decreasing_by
    · exact dpll_measure (by assumption) (chooseLit_mem (by assumption))
        (Or.inl rfl)
    · exact dpll_measure (by assumption) (chooseLit_mem (by assumption))
        (Or.inr rfl)

theorem dpll_complete {F : CNF} {A : List Int}
    (H : dpllF F A = some none) :
    ∀ w, Agrees w A → cnfVal w F = false := by
  rw [dpllF] at H
  split at H
  rename_i res RF A2 hU
  split at H
  · exact absurd H (by simp)
  · split at H
    · rename_i hnotend hresF
      intro w hw
      by_contra hne
      have hT : cnfVal w F = true := by
        revert hne
        cases cnfVal w F <;> simp
      obtain ⟨hA2, hres, hRF⟩ := unitProp_sem hU hw hT
      rw [hresF] at hres
      exact absurd hres (by simp)
    · rename_i hnotend hnotfalse
      split at H
      · exact absurd H (by simp)
      · rename_i d hC
        split at H
        · exact absurd H (by simp)
        · exact absurd H (by simp)
        · rename_i hrec1
          split at H
          · exact absurd H (by simp)
          · exact absurd H (by simp)
          · rename_i hrec2
            intro w hw
            by_contra hne
            have hT : cnfVal w F = true := by
              revert hne
              cases cnfVal w F <;> simp
            obtain ⟨hA2, -, hRF⟩ := unitProp_sem hU hw hT
            have hIH1 := dpll_complete hrec1
            have hIH2 := dpll_complete hrec2
            by_cases hd0 : d = 0
            · subst hd0
              by_cases hv : litVal w 0 = true
              · have hAg : Agrees w (insertSet A2 0) := by
                  intro a ha
                  rcases mem_insertSet.mp ha with h | rfl
                  · exact hA2 a h
                  · exact hv
                have hf := hIH1 w hAg
                rw [hf] at hRF
                exact absurd hRF (by simp)
              · have hval : ∀ y : Int, y ≠ 0 →
                    litVal (fun x => if x = 0 then false else w x) y
                      = litVal w y := by
                  intro y hy
                  have hy' : ¬(-y = 0) := by omega
                  by_cases h : 0 < y
                  · simp [litVal, h, hy]
                  · simp [litVal, h, hy']
                have hv0 : litVal (fun x => if x = 0 then false else w x) 0
                    = true := by
                  simp [litVal]
                have hA2' : Agrees (fun x => if x = 0 then false else w x) A2 := by
                  intro a ha
                  by_cases ha0 : a = 0
                  · subst ha0
                    exact hv0
                  · rw [hval a ha0]
                    exact hA2 a ha
                have hRF' : cnfVal (fun x => if x = 0 then false else w x) RF
                    = true := by
                  rw [cnfVal, List.all_eq_true]
                  intro c hc
                  have hcw := cnfVal_mem hRF c hc
                  rw [clauseVal, List.any_eq_true] at hcw ⊢
                  obtain ⟨y, hy, hyv⟩ := hcw
                  have hy0 : y ≠ 0 := by
                    rintro rfl
                    exact hv hyv
                  exact ⟨y, hy, by rw [hval y hy0]; exact hyv⟩
                have hAg : Agrees (fun x => if x = 0 then false else w x)
                    (insertSet A2 0) := by
                  intro a ha
                  rcases mem_insertSet.mp ha with h | rfl
                  · exact hA2' a h
                  · exact hv0
                have hf := hIH1 _ hAg
                rw [hf] at hRF'
                exact absurd hRF' (by simp)
            · by_cases hv : litVal w d = true
              · have hAg : Agrees w (insertSet A2 d) := by
                  intro a ha
                  rcases mem_insertSet.mp ha with h | rfl
                  · exact hA2 a h
                  · exact hv
                have hf := hIH1 w hAg
                rw [hf] at hRF
                exact absurd hRF (by simp)
              · have hvneg : litVal w (-d) = true := by
                  rw [litVal_neg w hd0]
                  rw [Bool.not_eq_true] at hv
                  rw [hv]
                  rfl
                have hAg : Agrees w (insertSet A2 (-d)) := by
                  intro a ha
                  rcases mem_insertSet.mp ha with h | rfl
                  · exact hA2 a h
                  · exact hvneg
                have hf := hIH2 w hAg
                rw [hf] at hRF
                exact absurd hRF (by simp)
  termination_by (varsF F \ avars A).card
  decreasing_by
    · exact dpll_measure (by assumption) (chooseLit_mem (by assumption))
        (Or.inl rfl)
    · exact dpll_measure (by assumption) (chooseLit_mem (by assumption))
        (Or.inr rfl)

/-- Valuation read off a literal set: a positive id is true exactly when it
is a member (0 is never made true, so that the literal `0`, its own
negation, evaluates to true). -/
def wOf (M : List Int) : Int → Bool := fun v => decide (v ∈ M ∧ v ≠ 0)

theorem satBy_sat {M : List Int} {F : CNF} (hcons : Consistent M)
    (h : ∀ c ∈ F, satBy M c) : cnfVal (wOf M) F = true := by
  rw [cnfVal, List.all_eq_true]
  intro c hc
  obtain ⟨l, hl, hlM⟩ := h c hc
  rw [clauseVal, List.any_eq_true]
  refine ⟨l, hl, ?_⟩
  rw [litVal]
  by_cases hpos : 0 < l
  · rw [if_pos hpos]
    have hl0 : l ≠ 0 := by omega
    simp [wOf, hlM, hl0]
  · rw [if_neg hpos]
    by_cases hl0 : l = 0
    · subst hl0
      simp [wOf]
    · have hneg : -l ∉ M := hcons l hlM hl0
      simp [wOf, hneg]

/-- Unfolding of one `dpll` call, given the value of its unit propagation. -/
theorem dpllF_run {F : CNF} {A : List Int} {res : Bool} {RF : CNF}
    {A2 : List Int} (hU : unitProp F A = (res, RF, A2)) :
    dpllF F A =
      if RF = [] ∧ res = true then some (some (sortByAbs A2))
      else if res = false then some none
      else
        match hC : chooseLit RF with
        | none => none
        | some d =>
          match dpllF RF (insertSet A2 d) with
          | none => none
          | some (some M) => some (some M)
          | some none =>
            match dpllF RF (insertSet A2 (-d)) with
            | none => none
            | some (some M) => some (some M)
            | some none => some none := by
  rw [dpllF, hU]

theorem dpllF_sat {F : CNF} {A A2 : List Int}
    (hU : unitProp F A = (true, [], A2)) :
    dpllF F A = some (some (sortByAbs A2)) := by
  rw [dpllF_run hU, if_pos ⟨rfl, rfl⟩]

theorem dpllF_unsat {F : CNF} {A : List Int} {RF : CNF} {A2 : List Int}
    (hU : unitProp F A = (false, RF, A2)) :
    dpllF F A = some none := by
  rw [dpllF_run hU, if_neg (by simp), if_pos rfl]

theorem dpllF_stuck {F : CNF} {A A2 : List Int} {RF : CNF}
    (hU : unitProp F A = (true, RF, A2)) (hRF : RF ≠ [])
    (hC : chooseLit RF = none) :
    dpllF F A = none := by
  rw [dpllF_run hU, if_neg (by simp [hRF]), if_neg (by simp)]
  split
  · rfl
  · rename_i d heq
    rw [hC] at heq
    exact absurd heq (by simp)

theorem dpllF_branch {F : CNF} {A A2 : List Int} {RF : CNF} {d : Int}
    (hU : unitProp F A = (true, RF, A2)) (hRF : RF ≠ [])
    (hC : chooseLit RF = some d) :
    dpllF F A =
      match dpllF RF (insertSet A2 d) with
      | none => none
      | some (some M) => some (some M)
      | some none =>
        match dpllF RF (insertSet A2 (-d)) with
        | none => none
        | some (some M) => some (some M)
        | some none => some none := by
  rw [dpllF_run hU, if_neg (by simp [hRF]), if_neg (by simp)]
  split
  · rename_i heq
    rw [hC] at heq
    exact absurd heq (by simp)
  · rename_i d' heq
    rw [hC] at heq
    obtain rfl : d = d' := by simpa using heq
    rfl

theorem solve_eq {s : String} {F : CNF} (h : readClauses s = some F) :
    solve s = dpllF F [] := by
  rw [solve, h]

/-- A run of `read_clauses` over lines that are all skipped leaves the
clause list unchanged. -/
theorem readLine_skip_all {L : List String} {F : CNF}
    (h : ∀ line ∈ L, line = "" ∨ line.front = 'c' ∨ line.front = 'p') :
    L.foldlM readLine F = some F := by
  induction L generalizing F with
  | nil => rfl
  | cons line rest ih =>
    have hstep : readLine F line = some F := by
      rcases h line (List.mem_cons_self _ _) with h' | h' | h'
      · rw [readLine, if_pos (Or.inl h')]
      · rw [readLine, if_pos (Or.inr h')]
      · rw [readLine]
        by_cases hc : line = "" ∨ line.front = 'c'
        · rw [if_pos hc]
        · rw [if_neg hc, if_pos h']
    rw [List.foldlM_cons, hstep]
    exact ih (fun l hl => h l (List.mem_cons_of_mem _ hl))

theorem readClauses_skip_all {s : String}
    (h : ∀ line ∈ pySplitlines s,
      line = "" ∨ line.front = 'c' ∨ line.front = 'p') :
    readClauses s = some [] := by
  rw [readClauses]
  exact readLine_skip_all h

/-- The strict preference order of Python's
`max(dict, key=lambda k: (dict[k], -k))`: larger count first, then larger
`-key` (that is, smaller key). -/
def leE (f e : Int × Nat) : Prop := f.2 < e.2 ∨ (f.2 = e.2 ∧ -f.1 ≤ -e.1)

theorem leE_refl (e : Int × Nat) : leE e e := Or.inr ⟨rfl, le_refl _⟩

theorem leE_trans {f a e : Int × Nat} (h1 : leE f a) (h2 : leE a e) :
    leE f e := by
  rcases h1 with h1 | ⟨h1, h1'⟩ <;> rcases h2 with h2 | ⟨h2, h2'⟩
  · exact Or.inl (h1.trans h2)
  · exact Or.inl (h2 ▸ h1)
  · exact Or.inl (h1 ▸ h2)
  · exact Or.inr ⟨h1.trans h2, h1'.trans h2'⟩

theorem foldl_maxStep_le {d : List (Int × Nat)} {acc : Option (Int × Nat)}
    {e : Int × Nat} (h : d.foldl maxStep acc = some e) :
    (∀ f ∈ d, leE f e) ∧ (∀ a, acc = some a → leE a e) := by
  induction d generalizing acc with
  | nil =>
    refine ⟨by simp, fun a ha => ?_⟩
    rw [ha] at h
    obtain rfl : a = e := by simpa using h
    exact leE_refl a
  | cons f fs ih =>
    rw [List.foldl_cons] at h
    obtain ⟨ih1, ih2⟩ := ih h
    have hfe : leE f e := by
      match hacc : acc with
      | none => exact ih2 f (by simp [maxStep])
      | some a =>
        rw [maxStep] at ih2
        obtain ⟨k0, c0⟩ := a
        by_cases himp : c0 < f.2 ∨ (c0 = f.2 ∧ -k0 < -f.1)
        · exact ih2 f (by rw [if_pos himp])
        · have ha := ih2 (k0, c0) (by rw [if_neg himp])
          push_neg at himp
          refine leE_trans ?_ ha
          rcases Nat.lt_or_ge f.2 c0 with h' | h'
          · exact Or.inl h'
          · have : f.2 = c0 := by omega
            exact Or.inr ⟨this, by
              have := himp.2 this.symm
              omega⟩
    refine ⟨fun g hg => ?_, fun a ha => ?_⟩
    · rcases List.mem_cons.mp hg with rfl | hg'
      · exact hfe
      · exact ih1 g hg'
    · subst ha
      rw [maxStep] at ih2
      obtain ⟨k0, c0⟩ := a
      by_cases himp : c0 < f.2 ∨ (c0 = f.2 ∧ -k0 < -f.1)
      · refine leE_trans ?_ hfe
        rcases himp with h' | ⟨h', h''⟩
        · exact Or.inl h'
        · exact Or.inr ⟨h', le_of_lt h''⟩
      · exact ih2 (k0, c0) (by rw [if_neg himp])

theorem foldl_maxStep_ne_none {d : List (Int × Nat)}
    {acc : Option (Int × Nat)} (h : d ≠ [] ∨ acc ≠ none) :
    d.foldl maxStep acc ≠ none := by
  induction d generalizing acc with
  | nil =>
    rcases h with h | h
    · exact absurd rfl h
    · exact h
  | cons f fs ih =>
    rw [List.foldl_cons]
    refine ih (Or.inr ?_)
    match acc with
    | none => simp [maxStep]
    | some (k0, c0) =>
      simp only [maxStep]
      split <;> simp

/-- The keys of a counting dictionary. -/
def dkeys (d : List (Int × Nat)) : List Int := d.map Prod.fst

theorem dkeys_bump (d : List (Int × Nat)) (k : Int) :
    dkeys (bump d k) = if k ∈ dkeys d then dkeys d else dkeys d ++ [k] := by
  induction d with
  | nil => simp [bump, dkeys]
  | cons e rest ih =>
    obtain ⟨a, c⟩ := e
    by_cases hak : a = k
    · subst hak
      simp [bump, dkeys]
    · have h' : ¬k = a := fun h => hak h.symm
      rw [bump, if_neg hak]
      show a :: dkeys (bump rest k) = _
      rw [ih]
      have hmem_iff : k ∈ dkeys ((a, c) :: rest) ↔ k ∈ dkeys rest := by
        simp [dkeys, h']
      by_cases hmem : k ∈ dkeys rest
      · rw [if_pos hmem, if_pos (hmem_iff.mpr hmem)]
        rfl
      · rw [if_neg hmem, if_neg (fun h => hmem (hmem_iff.mp h))]
        rfl

theorem nodup_dkeys_bump {d : List (Int × Nat)} {k : Int}
    (h : (dkeys d).Nodup) : (dkeys (bump d k)).Nodup := by
  rw [dkeys_bump]
  split
  · exact h
  · rename_i hmem
    simp [List.nodup_append, h, hmem]

theorem nodup_dkeys_countStep {pn : List (Int × Nat) × List (Int × Nat)}
    {l : Int} (h1 : (dkeys pn.1).Nodup) (h2 : (dkeys pn.2).Nodup) :
    (dkeys (countStep pn l).1).Nodup ∧ (dkeys (countStep pn l).2).Nodup := by
  rw [countStep]
  split
  · exact ⟨nodup_dkeys_bump h1, h2⟩
  · exact ⟨h1, nodup_dkeys_bump h2⟩

theorem nodup_dkeys_countDicts (F : CNF) :
    (dkeys (countDicts F).1).Nodup ∧ (dkeys (countDicts F).2).Nodup := by
  rw [countDicts_eq_foldl]
  generalize F.flatten = L
  have hgen : ∀ (pn : List (Int × Nat) × List (Int × Nat)),
      (dkeys pn.1).Nodup → (dkeys pn.2).Nodup →
      (dkeys (L.foldl countStep pn).1).Nodup ∧
        (dkeys (L.foldl countStep pn).2).Nodup := by
    induction L with
    | nil => exact fun pn h1 h2 => ⟨h1, h2⟩
    | cons l ls ih =>
      intro pn h1 h2
      rw [List.foldl_cons]
      obtain ⟨h1', h2'⟩ := nodup_dkeys_countStep h1 h2
      exact ih _ h1' h2'
  exact hgen ([], []) (by simp [dkeys]) (by simp [dkeys])

theorem dlookup_of_mem_nodup {d : List (Int × Nat)} {k : Int} {c : Nat}
    (hnd : (dkeys d).Nodup) (h : (k, c) ∈ d) : dlookup d k = some c := by
  induction d with
  | nil => simp at h
  | cons e rest ih =>
    obtain ⟨a, b⟩ := e
    rw [dkeys, List.map_cons, List.nodup_cons] at hnd
    rcases List.mem_cons.mp h with h' | h'
    · simp only [Prod.mk.injEq] at h'
      obtain ⟨rfl, rfl⟩ := h'
      simp [dlookup]
    · rw [dlookup]
      split
      · rename_i hak
        subst hak
        exact absurd (by simpa [dkeys] using List.mem_map_of_mem Prod.fst h')
          hnd.1
      · exact ih hnd.2 h'

theorem mem_of_dlookup {d : List (Int × Nat)} {k : Int} {c : Nat}
    (h : dlookup d k = some c) : (k, c) ∈ d := by
  induction d with
  | nil => simp [dlookup] at h
  | cons e rest ih =>
    obtain ⟨a, b⟩ := e
    rw [dlookup] at h
    split at h
    · rename_i hak
      obtain rfl := hak
      obtain rfl : b = c := by simpa using h
      exact List.mem_cons_self _ _
    · exact List.mem_cons_of_mem _ (ih h)

/-- The id the specification calls `maxPos`: a positively occurring id of
maximal positive count, ties broken toward the smaller id. -/
def IsMaxPos (F : CNF) (v : Int) : Prop :=
  0 < posCount F v ∧
    ∀ u : Int, posCount F u ≤ posCount F v ∧
      (posCount F u = posCount F v → v ≤ u)

/-- The id the specification calls `maxNeg`, for negative counts. -/
def IsMaxNeg (F : CNF) (v : Int) : Prop :=
  0 < negCount F v ∧
    ∀ u : Int, negCount F u ≤ negCount F v ∧
      (negCount F u = negCount F v → v ≤ u)

theorem maxEntry_pos_char {F : CNF} {p : Int} {cp : Nat}
    (h : maxEntry (countDicts F).1 = some (p, cp)) :
    cp = posCount F p ∧ IsMaxPos F p := by
  have hmem : (p, cp) ∈ (countDicts F).1 := by
    rcases foldl_maxStep_mem h with h' | h'
    · exact absurd h' (by simp)
    · exact h'
  have hl := dlookup_of_mem_nodup (nodup_dkeys_countDicts F).1 hmem
  rw [countDicts_lookup_pos] at hl
  have hcp : posCount F p = cp ∧ 0 < posCount F p := by
    by_cases h0 : posCount F p = 0
    · rw [if_pos h0] at hl
      exact absurd hl (by simp)
    · rw [if_neg h0] at hl
      exact ⟨by simpa using hl, Nat.pos_of_ne_zero h0⟩
  obtain ⟨hcp1, hcp2⟩ := hcp
  have hle := (foldl_maxStep_le h).1
  refine ⟨hcp1.symm, hcp2, fun u => ?_⟩
  by_cases hu0 : posCount F u = 0
  · constructor
    · omega
    · intro he
      omega
  · have hlu : dlookup (countDicts F).1 u = some (posCount F u) := by
      rw [countDicts_lookup_pos, if_neg hu0]
    have humem := mem_of_dlookup hlu
    have := hle (u, posCount F u) humem
    rcases this with h' | ⟨h', h''⟩
    · simp only at h'
      constructor
      · omega
      · intro he
        omega
    · simp only at h' h''
      constructor
      · omega
      · intro he
        omega

theorem maxEntry_neg_char {F : CNF} {n : Int} {cn : Nat}
    (h : maxEntry (countDicts F).2 = some (n, cn)) :
    cn = negCount F n ∧ IsMaxNeg F n := by
  have hmem : (n, cn) ∈ (countDicts F).2 := by
    rcases foldl_maxStep_mem h with h' | h'
    · exact absurd h' (by simp)
    · exact h'
  have hl := dlookup_of_mem_nodup (nodup_dkeys_countDicts F).2 hmem
  rw [countDicts_lookup_neg] at hl
  have hcp : negCount F n = cn ∧ 0 < negCount F n := by
    by_cases h0 : negCount F n = 0
    · rw [if_pos h0] at hl
      exact absurd hl (by simp)
    · rw [if_neg h0] at hl
      exact ⟨by simpa using hl, Nat.pos_of_ne_zero h0⟩
  obtain ⟨hcp1, hcp2⟩ := hcp
  have hle := (foldl_maxStep_le h).1
  refine ⟨hcp1.symm, hcp2, fun u => ?_⟩
  by_cases hu0 : negCount F u = 0
  · constructor
    · omega
    · intro he
      omega
  · have hlu : dlookup (countDicts F).2 u = some (negCount F u) := by
      rw [countDicts_lookup_neg, if_neg hu0]
    have humem := mem_of_dlookup hlu
    have := hle (u, negCount F u) humem
    rcases this with h' | ⟨h', h''⟩
    · simp only at h'
      constructor
      · omega
      · intro he
        omega
    · simp only at h' h''
      constructor
      · omega
      · intro he
        omega

theorem pos_occurrence_iff (F : CNF) :
    (∃ c ∈ F, ∃ l ∈ c, 0 < l) ↔ ∃ v, posCount F v ≠ 0 := by
  constructor
  · rintro ⟨c, hc, l, hl, hpos⟩
    refine ⟨l, ?_⟩
    have : 0 < posCount F l := by
      rw [posCount, List.countP_pos]
      exact ⟨l, List.mem_flatten.mpr ⟨c, hc, hl⟩, by simp [isPosOcc, hpos]⟩
    omega
  · rintro ⟨v, hv⟩
    have := List.countP_pos.mp (Nat.pos_of_ne_zero hv)
    obtain ⟨l, hl, hp⟩ := this
    rw [isPosOcc, Bool.and_eq_true, decide_eq_true_eq, decide_eq_true_eq]
      at hp
    obtain ⟨c, hc, hlc⟩ := List.mem_flatten.mp hl
    exact ⟨c, hc, l, hlc, hp.1⟩

theorem neg_occurrence_iff (F : CNF) :
    (∃ c ∈ F, ∃ l ∈ c, ¬0 < l) ↔ ∃ v, negCount F v ≠ 0 := by
  constructor
  · rintro ⟨c, hc, l, hl, hneg⟩
    refine ⟨-l, ?_⟩
    have : 0 < negCount F (-l) := by
      rw [negCount, List.countP_pos]
      exact ⟨l, List.mem_flatten.mpr ⟨c, hc, hl⟩, by simp [isNegOcc, hneg]⟩
    omega
  · rintro ⟨v, hv⟩
    have := List.countP_pos.mp (Nat.pos_of_ne_zero hv)
    obtain ⟨l, hl, hp⟩ := this
    rw [isNegOcc, Bool.and_eq_true, Bool.not_eq_true', decide_eq_false_iff_not,
      decide_eq_true_eq] at hp
    obtain ⟨c, hc, hlc⟩ := List.mem_flatten.mp hl
    exact ⟨c, hc, l, hlc, hp.1⟩

theorem countDicts_pos_empty_iff (F : CNF) :
    (countDicts F).1 = [] ↔ ¬∃ v, posCount F v ≠ 0 := by
  constructor
  · rintro hd ⟨v, hv⟩
    have : dlookup (countDicts F).1 v = some (posCount F v) := by
      rw [countDicts_lookup_pos, if_neg hv]
    rw [hd] at this
    exact absurd this (by simp [dlookup])
  · intro h
    match hd : (countDicts F).1 with
    | [] => rfl
    | (k, c) :: rest =>
      have : dlookup (countDicts F).1 k ≠ none := by
        rw [hd]
        exact dlookup_ne_none_of_mem (List.mem_cons_self _ _)
      rw [countDicts_lookup_pos] at this
      by_cases h0 : posCount F k = 0
      · rw [if_pos h0] at this
        exact absurd rfl this
      · exact absurd ⟨k, h0⟩ h

theorem countDicts_neg_empty_iff (F : CNF) :
    (countDicts F).2 = [] ↔ ¬∃ v, negCount F v ≠ 0 := by
  constructor
  · rintro hd ⟨v, hv⟩
    have : dlookup (countDicts F).2 v = some (negCount F v) := by
      rw [countDicts_lookup_neg, if_neg hv]
    rw [hd] at this
    exact absurd this (by simp [dlookup])
  · intro h
    match hd : (countDicts F).2 with
    | [] => rfl
    | (k, c) :: rest =>
      have : dlookup (countDicts F).2 k ≠ none := by
        rw [hd]
        exact dlookup_ne_none_of_mem (List.mem_cons_self _ _)
      rw [countDicts_lookup_neg] at this
      by_cases h0 : negCount F k = 0
      · rw [if_pos h0] at this
        exact absurd rfl this
      · exact absurd ⟨k, h0⟩ h

theorem maxEntry_eq_none_iff (d : List (Int × Nat)) :
    maxEntry d = none ↔ d = [] := by
  constructor
  · intro h
    by_contra hne
    exact foldl_maxStep_ne_none (Or.inl hne) h
  · rintro rfl
    rfl

end Dpll

namespace F2C

/-- An element of the translator's stack (and of a stored subformula):
the `(` marker, a raw token string, or an integer (a fresh subformula id or
a negated id). -/
inductive Elem where
  | paren : Elem
  | str : String → Elem
  | int : Int → Elem
deriving DecidableEq

/-- `Formula2CNF.is_operator`. -/
def isOperator (t : String) : Bool :=
  t = "or" || t = "and" || t = "not"

/-- `is_operator` as applied to a stack element during operand resolution
(an integer is never an operator). -/
def elemIsOperator : Elem → Bool
  | .str s => isOperator s
  | _ => false

/-- Bracket characters isolated by the regex of `parse_formula`. -/
def isBracket (c : Char) : Bool :=
  c = '(' || c = ')' || c = '[' || c = ']' || c = '\x7b' || c = '\x7d'

/-- The token scanner of `parse_formula`: the regex surrounds every bracket
character with spaces and the result is split by `str.split()`; equivalently
every bracket becomes a standalone token and the other maximal
non-whitespace runs are kept verbatim. -/
def tokenize (s : String) : List String :=
  (Dpll.splitWs []
      (s.toList.flatMap (fun c => if isBracket c then [' ', c, ' '] else [c]))).map
    (fun cs => String.mk cs)

/-- The mutable state of `parse_formula`: the stack (head = top), the two
variable maps, the fresh-id counter and the subformula map, all in insertion
order. -/
structure PSt where
  stack : List Elem
  vars : List (Int × String)
  v2i : List (String × Int)
  cnt : Int
  subs : List (Int × List Elem)
deriving DecidableEq

/-- Association-list lookup for `variables_to_integer`. -/
def v2iLookup : List (String × Int) → String → Option Int
  | [], _ => none
  | (k, v) :: rest, k' => if k = k' then some v else v2iLookup rest k'

/-- `Formula2CNF.get_variable_number`: an integer already naming a
registered subformula or variable passes through; otherwise the element is
looked up as a variable name, and a missing key (Python `KeyError`) is
`none`. -/
def getVariableNumber (st : PSt) : Elem → Option Int
  | .int n =>
    if st.subs.any (fun p => p.1 = (n.natAbs : Int))
        || st.vars.any (fun p => p.1 = (n.natAbs : Int)) then
      some n
    else none
  | .str s => v2iLookup st.v2i s
  | .paren => none

/-- The operand-resolution loop of the subformula branch of
`parse_formula`: operators pass through, everything else is replaced by
its integer id; a failed lookup (Python `KeyError`) aborts. -/
def resolveAll (st : PSt) : List Elem → Option (List Elem)
  | [] => some []
  | e :: es =>
    match (if elemIsOperator e then some e
        else (getVariableNumber st e).map .int), resolveAll st es with
    | some b, some bs => some (b :: bs)
    | _, _ => none

/-- Processing of one token by the stack machine of `parse_formula`;
`none` is an uncaught `KeyError`/`IndexError`. -/
def parseStep (st : PSt) (tok : String) : Option PSt :=
  if tok = "(" then some { st with stack := .paren :: st.stack }
  else if tok = ")" then
    match st.stack.dropWhile (fun e => decide (e ≠ .paren)) with
    | [] => none
    | _ :: rest =>
      match (st.stack.takeWhile (fun e => decide (e ≠ .paren))).reverse with
      | [] => none
      | e₀ :: etail =>
        if e₀ = .str "not" then
          match etail.head? with
          | none => none
          | some e₁ =>
            match getVariableNumber st e₁ with
            | none => none
            | some v => some { st with stack := .int (-v) :: rest }
        else
          match resolveAll st (e₀ :: etail) with
          | none => none
          | some temp =>
            some ⟨.int st.cnt :: rest, st.vars, st.v2i, st.cnt + 1,
              st.subs ++ [(st.cnt, temp)]⟩
  else
    if ¬isOperator tok ∧ v2iLookup st.v2i tok = none then
      some ⟨.str tok :: st.stack, st.vars ++ [(st.cnt, tok)],
        st.v2i ++ [(tok, st.cnt)], st.cnt + 1, st.subs⟩
    else some ⟨.str tok :: st.stack, st.vars, st.v2i, st.cnt, st.subs⟩

/-- The empty initial state (`reinit`). -/
def initSt : PSt := ⟨[], [], [], 1, []⟩

/-- `Formula2CNF.parse_formula`: run the stack machine over the tokens and
return the final state together with `stack[0]` — the BOTTOM element of the
stack, which on a well-formed formula is the only one left. -/
def parseFormula (s : String) : Option (PSt × Elem) :=
  match (tokenize s).foldlM parseStep initSt with
  | none => none
  | some st =>
    match st.stack.getLast? with
    | none => none
    | some root => some (st, root)

/-- Lookup in the subformula map (`root in self.subformulas`). -/
def slookup : List (Int × List Elem) → Int → Option (List Elem)
  | [], _ => none
  | (k, v) :: rest, k' => if k = k' then some v else slookup rest k'

/-- `Formula2CNF.tseitin_transform`, with explicit fuel (the recursion
descends along strictly decreasing ids, so `variables_cnt` steps always
suffice for a parser-produced map).  Returns the clauses this call appends,
in order, each carrying its trailing `0` sentinel.  `none` models an
uncaught Python error: a missing operand (`IndexError`) or — in `eq` mode a
`TypeError`, in `left_to_right` mode a clause entry that is not an integer —
a non-integer operand. -/
def tseitin (subs : List (Int × List Elem)) (mode : String) :
    Nat → Int → Option (List (List Int))
  | 0, _ => none
  | fuel + 1, root =>
    match slookup subs root with
    | none => some []
    | some sf =>
      match sf.head?, sf.get? 1, sf.get? 2 with
      | some (.str op), some (.int l), some (.int r) =>
        if op = "and" then
          match tseitin subs mode fuel l, tseitin subs mode fuel r with
          | some cl, some cr =>
            some ((if mode = "eq" then
                [[-l, -r, root, 0], [l, -root, 0], [r, -root, 0]]
              else if mode = "left_to_right" then
                [[-root, l, 0], [-root, r, 0]]
              else []) ++ cl ++ cr)
          | _, _ => none
        else if op = "or" then
          match tseitin subs mode fuel l, tseitin subs mode fuel r with
          | some cl, some cr =>
            some ((if mode = "eq" then
                [[l, r, -root, 0], [-l, root, 0], [-r, root, 0]]
              else if mode = "left_to_right" then
                [[-root, l, r, 0]]
              else []) ++ cl ++ cr)
          | _, _ => none
        else some []
      | some (.str op), _, _ =>
        if op = "and" || op = "or" then none else some []
      | some _, _, _ => some []
      | none, _, _ => none

/-- `Formula2CNF.run` up to serialisation: reinitialise, parse, append the
unit clause forcing the root, and Tseitin-encode from the root.  The result
is the final `self.clauses`.  `none` covers the uncaught-exception runs and
the degenerate case of a non-integer root (whose "clause" would not consist
of integers). -/
def runClauses (mode : String) (s : String) : Option (List (List Int)) :=
  match parseFormula s with
  | none => none
  | some (st, .int r) =>
    match tseitin st.subs mode (st.cnt.natAbs + 1) r with
    | none => none
    | some cls => some ([r, 0] :: cls)
  | some (_, _) => none

/-- `Formula2CNF.get_output` builds the DIMACS text in `output_text`,
prints it, and then executes `return ""` — the built text is NOT returned.
Only the returned value is modelled. -/
def getOutput : String := ""

/-- `Formula2CNF.run`: parse, encode, serialise.  On a run without an
exception it returns whatever `get_output` returns. -/
def run (mode : String) (s : String) : Option String :=
  match runClauses mode s with
  | none => none
  | some _ => some getOutput

/-- The CNF denoted by an emitted clause list: the `0` sentinels are
dropped and the remaining entries read as literals. -/
def stripCNF (C : List (List Int)) : Dpll.CNF :=
  C.map (fun c => c.filter (fun x => decide (x ≠ 0)))

/-- Satisfiability of an emitted clause list. -/
def SatD (C : List (List Int)) : Prop := Dpll.Sat (stripCNF C)

theorem slookup_mem {subs : List (Int × List Elem)} {k : Int}
    {sf : List Elem} (h : slookup subs k = some sf) : (k, sf) ∈ subs := by
  induction subs with
  | nil => simp [slookup] at h
  | cons p rest ih =>
    obtain ⟨a, v⟩ := p
    rw [slookup] at h
    split at h
    · rename_i hak
      obtain rfl := hak
      obtain rfl : v = sf := by simpa using h
      exact List.mem_cons_self _ _
    · exact List.mem_cons_of_mem _ (ih h)

/-- The integer elements of an element list (the operand references). -/
def elemInts (l : List Elem) : List Int :=
  l.filterMap (fun e => match e with | .int n => some n | _ => none)

theorem mem_elemInts_of_get {sf : List Elem} {i : Nat} {n : Int}
    (h : sf.get? i = some (.int n)) : n ∈ elemInts sf := by
  have hmem : Elem.int n ∈ sf := List.get?_mem h
  rw [elemInts, List.mem_filterMap]
  exact ⟨.int n, hmem, rfl⟩

/-- The and/or node structure `tseitin_transform` reads off an id:
the operator string and the two operand references, when they exist. -/
def nodeOf (subs : List (Int × List Elem)) (x : Int) :
    Option (String × Int × Int) :=
  match slookup subs x with
  | none => none
  | some sf =>
    match sf.head?, sf.get? 1, sf.get? 2 with
    | some (.str op), some (.int l), some (.int r) =>
      if op = "and" ∨ op = "or" then some (op, l, r) else none
    | _, _, _ => none

/-- The clauses one node contributes, by mode and operator. -/
def nodeClauses (mode op : String) (x l r : Int) : List (List Int) :=
  if op = "and" then
    if mode = "eq" then [[-l, -r, x, 0], [l, -x, 0], [r, -x, 0]]
    else if mode = "left_to_right" then [[-x, l, 0], [-x, r, 0]]
    else []
  else
    if mode = "eq" then [[l, r, -x, 0], [-l, x, 0], [-r, x, 0]]
    else if mode = "left_to_right" then [[-x, l, r, 0]]
    else []

theorem nodeOf_some {subs : List (Int × List Elem)} {x : Int} {op : String}
    {l r : Int} (h : nodeOf subs x = some (op, l, r)) :
    ∃ sf, slookup subs x = some sf ∧ sf.head? = some (.str op) ∧
      sf.get? 1 = some (.int l) ∧ sf.get? 2 = some (.int r) ∧
      (op = "and" ∨ op = "or") := by
  rw [nodeOf] at h
  split at h
  · exact absurd h (by simp)
  · rename_i sf hsl
    split at h
    all_goals try exact Option.noConfusion h
    rename_i op' l' r' hh h1 h2
    split at h
    · rename_i hor
      obtain ⟨rfl, rfl, rfl⟩ : op' = op ∧ l' = l ∧ r' = r := by
        simpa using h
      exact ⟨sf, hsl, hh, h1, h2, hor⟩
    · exact Option.noConfusion h

theorem nodeOf_eq_none {subs : List (Int × List Elem)} {x : Int}
    {sf : List Elem} (hsl : slookup subs x = some sf)
    (hbad : ∀ op l r, sf.head? = some (.str op) →
      sf.get? 1 = some (.int l) → sf.get? 2 = some (.int r) →
      (op = "and" ∨ op = "or") → False) :
    nodeOf subs x = none := by
  match hnd : nodeOf subs x with
  | none => rfl
  | some (op, l, r) =>
    obtain ⟨sf', hsl', hh, h1, h2, hor⟩ := nodeOf_some hnd
    obtain rfl : sf' = sf := by
      rw [hsl'] at hsl
      simpa using hsl
    exact (hbad op l r hh h1 h2 hor).elim

theorem tseitin_cases {subs : List (Int × List Elem)} {mode : String}
    {fuel : Nat} {x : Int} {C : List (List Int)}
    (h : tseitin subs mode (fuel + 1) x = some C) :
    (nodeOf subs x = none ∧ C = []) ∨
      ∃ op l r cl cr, nodeOf subs x = some (op, l, r) ∧
        tseitin subs mode fuel l = some cl ∧
        tseitin subs mode fuel r = some cr ∧
        C = nodeClauses mode op x l r ++ cl ++ cr := by
  rw [tseitin] at h
  split at h
  · rename_i hsl
    obtain rfl : C = [] := by simpa using h.symm
    exact Or.inl ⟨by simp [nodeOf, hsl], rfl⟩
  · rename_i sf hsl
    split at h
    · rename_i op l r hhead hg1 hg2
      have hnd : nodeOf subs x
          = if op = "and" ∨ op = "or" then some (op, l, r) else none := by
        simp only [nodeOf, hsl, hhead, hg1, hg2]
      split at h
      · rename_i hand
        split at h
        · rename_i cl cr hcl hcr
          obtain rfl : C = _ := by simpa using h.symm
          refine Or.inr ⟨op, l, r, cl, cr, ?_, hcl, hcr, ?_⟩
          · rw [hnd, if_pos (Or.inl hand)]
          · rw [nodeClauses, if_pos hand, List.append_assoc]
        · exact absurd h (by simp)
      · rename_i hand
        split at h
        · rename_i hor
          split at h
          · rename_i cl cr hcl hcr
            obtain rfl : C = _ := by simpa using h.symm
            refine Or.inr ⟨op, l, r, cl, cr, ?_, hcl, hcr, ?_⟩
            · rw [hnd, if_pos (Or.inr hor)]
            · rw [nodeClauses, if_neg hand, List.append_assoc]
          · exact absurd h (by simp)
        · rename_i hor
          obtain rfl : C = [] := by simpa using h.symm
          refine Or.inl ⟨?_, rfl⟩
          rw [hnd, if_neg (by tauto)]
    · rename_i op hhead hne
      split at h
      · exact absurd h (by simp)
      · rename_i hop
        obtain rfl : C = [] := by simpa using h.symm
        refine Or.inl ⟨?_, rfl⟩
        refine nodeOf_eq_none hsl (fun op' l r hh' h1 h2 hor => ?_)
        exact hne l r h1 h2
    · rename_i e hno2 hhead hno1
      obtain rfl : C = [] := by simpa using h.symm
      refine Or.inl ⟨?_, rfl⟩
      refine nodeOf_eq_none hsl (fun op' l r hh' h1 h2 hor => ?_)
      rw [hhead] at hh'
      exact hno2 op' (by simpa using hh')
    · rename_i hhead
      exact absurd h (by simp)

theorem stripCNF_append (A B : List (List Int)) :
    stripCNF (A ++ B) = stripCNF A ++ stripCNF B := List.map_append _ _ _

theorem cnfVal_append (w : Int → Bool) (A B : Dpll.CNF) :
    Dpll.cnfVal w (A ++ B) = (Dpll.cnfVal w A && Dpll.cnfVal w B) :=
  List.all_append

/-- The left-to-right encoding never emits more clauses than the
equivalence encoding, node by node. -/
theorem tseitin_count {subs : List (Int × List Elem)} :
    ∀ {fuel : Nat} {x : Int} {Ceq Cltr : List (List Int)},
      tseitin subs "eq" fuel x = some Ceq →
      tseitin subs "left_to_right" fuel x = some Cltr →
      Cltr.length ≤ Ceq.length := by
  intro fuel
  induction fuel with
  | zero => intro x Ceq Cltr h
            simp [tseitin] at h
  | succ fuel ih =>
    intro x Ceq Cltr heq hltr
    rcases tseitin_cases heq with ⟨hn, rfl⟩ | ⟨op, l, r, cl, cr, hn, hl, hr, rfl⟩
    · rcases tseitin_cases hltr with ⟨-, rfl⟩ | ⟨op, l, r, cl, cr, hn', -⟩
      · simp
      · rw [hn] at hn'
        exact absurd hn' (by simp)
    · rcases tseitin_cases hltr with ⟨hn', -⟩ | ⟨op', l', r', cl', cr', hn', hl', hr', rfl⟩
      · rw [hn] at hn'
        exact absurd hn' (by simp)
      · rw [hn] at hn'
        obtain ⟨rfl, rfl, rfl⟩ : op = op' ∧ l = l' ∧ r = r' := by
          simpa using hn'
        have h1 := ih hl hl'
        have h2 := ih hr hr'
        have h3 : (nodeClauses "left_to_right" op x l r).length ≤
            (nodeClauses "eq" op x l r).length := by
          rw [nodeClauses, nodeClauses]
          by_cases hand : op = "and" <;> simp [hand]
        simp only [List.length_append]
        omega

/-- A model of the equivalence clauses is a model of the left-to-right
clauses: every left-to-right clause lists the same literals as one of the
equivalence clauses of the same node. -/
theorem tseitin_eq_to_ltr {subs : List (Int × List Elem)} {w : Int → Bool} :
    ∀ {fuel : Nat} {x : Int} {Ceq Cltr : List (List Int)},
      tseitin subs "eq" fuel x = some Ceq →
      tseitin subs "left_to_right" fuel x = some Cltr →
      Dpll.cnfVal w (stripCNF Ceq) = true →
      Dpll.cnfVal w (stripCNF Cltr) = true := by
  intro fuel
  induction fuel with
  | zero => intro x Ceq Cltr h
            simp [tseitin] at h
  | succ fuel ih =>
    intro x Ceq Cltr heq hltr hval
    rcases tseitin_cases heq with ⟨hn, rfl⟩ | ⟨op, l, r, cl, cr, hn, hl, hr, rfl⟩
    · rcases tseitin_cases hltr with ⟨-, rfl⟩ | ⟨op, l, r, cl, cr, hn', -⟩
      · exact hval
      · rw [hn] at hn'
        exact absurd hn' (by simp)
    · rcases tseitin_cases hltr with ⟨hn', -⟩ | ⟨op', l', r', cl', cr', hn', hl', hr', rfl⟩
      · rw [hn] at hn'
        exact absurd hn' (by simp)
      · rw [hn] at hn'
        obtain ⟨rfl, rfl, rfl⟩ : op = op' ∧ l = l' ∧ r = r' := by
          simpa using hn'
        rw [stripCNF_append, stripCNF_append, cnfVal_append, cnfVal_append,
          Bool.and_eq_true, Bool.and_eq_true] at hval
        obtain ⟨⟨hnode, hcl⟩, hcr⟩ := hval
        rw [stripCNF_append, stripCNF_append, cnfVal_append, cnfVal_append]
        rw [ih hl hl' hcl, ih hr hr' hcr]
        have hclause : ∀ c₁ c₂ : List Int, (∀ y, y ∈ c₁ ↔ y ∈ c₂) →
            Dpll.clauseVal w (c₁.filter (fun z => decide (z ≠ 0)))
              = Dpll.clauseVal w (c₂.filter (fun z => decide (z ≠ 0))) := by
          intro c₁ c₂ hset
          rw [Dpll.clauseVal, Dpll.clauseVal]
          rcases hany : (c₂.filter (fun z => decide (z ≠ 0))).any
              (Dpll.litVal w) with _ | _
          · rw [List.any_eq_false] at hany ⊢
            intro y hy
            rw [List.mem_filter] at hy
            exact hany y (List.mem_filter.mpr ⟨(hset y).mp hy.1, hy.2⟩)
          · rw [List.any_eq_true] at hany ⊢
            obtain ⟨y, hy, hyv⟩ := hany
            rw [List.mem_filter] at hy
            exact ⟨y, List.mem_filter.mpr ⟨(hset y).mpr hy.1, hy.2⟩, hyv⟩
        have hnode' : Dpll.cnfVal w
            (stripCNF (nodeClauses "left_to_right" op x l r)) = true := by
          rw [nodeClauses] at hnode ⊢
          by_cases hand : op = "and"
          · rw [if_pos hand] at hnode ⊢
            rw [if_pos rfl] at hnode
            rw [if_neg (show ¬("left_to_right" = "eq") from by decide),
              if_pos rfl]
            rw [stripCNF, Dpll.cnfVal, List.map_cons, List.map_cons,
              List.map_cons, List.map_nil, List.all_cons, List.all_cons,
              List.all_cons, List.all_nil, Bool.and_eq_true, Bool.and_eq_true,
              Bool.and_eq_true] at hnode
            obtain ⟨h1, h2, h3, -⟩ := hnode
            rw [stripCNF, Dpll.cnfVal]
            simp only [List.map_cons, List.map_nil, List.all_cons,
              List.all_nil, Bool.and_eq_true]
            refine ⟨?_, ?_, trivial⟩
            · rw [hclause [-x, l, 0] [l, -x, 0] (by intro y; simp; tauto)]
              exact h2
            · rw [hclause [-x, r, 0] [r, -x, 0] (by intro y; simp; tauto)]
              exact h3
          · rw [if_neg hand] at hnode ⊢
            rw [if_pos rfl] at hnode
            rw [if_neg (show ¬("left_to_right" = "eq") from by decide),
              if_pos rfl]
            rw [stripCNF, Dpll.cnfVal, List.map_cons, List.map_cons,
              List.map_cons, List.map_nil, List.all_cons, List.all_cons,
              List.all_cons, List.all_nil, Bool.and_eq_true, Bool.and_eq_true,
              Bool.and_eq_true] at hnode
            obtain ⟨h1, -⟩ := hnode
            rw [stripCNF, Dpll.cnfVal]
            simp only [List.map_cons, List.map_nil, List.all_cons,
              List.all_nil, Bool.and_eq_true]
            refine ⟨?_, trivial⟩
            rw [hclause [-x, l, r, 0] [l, r, -x, 0] (by intro y; simp; tauto)]
            exact h1
        rw [hnode']
        rfl

theorem elemInts_append (a b : List Elem) :
    elemInts (a ++ b) = elemInts a ++ elemInts b := List.filterMap_append _ _ _

theorem elemInts_paren_cons (l : List Elem) :
    elemInts (.paren :: l) = elemInts l := rfl

theorem elemInts_str_cons (s : String) (l : List Elem) :
    elemInts (.str s :: l) = elemInts l := rfl

theorem elemInts_int_cons (n : Int) (l : List Elem) :
    elemInts (.int n :: l) = n :: elemInts l := rfl

theorem mem_elemInts_of_mem {l : List Elem} {n : Int}
    (h : Elem.int n ∈ l) : n ∈ elemInts l := by
  rw [elemInts, List.mem_filterMap]
  exact ⟨.int n, h, rfl⟩

/-- Occurrences referencing the id `k`, in either sign. -/
def refP (k : Int) : Int → Bool := fun o => decide (o = k) || decide (o = -k)

/-- Every reference held by the parser state: the integers on the stack and
the integers stored inside the subformula lists. -/
def allRefs (st : PSt) : List Int :=
  elemInts st.stack ++ (st.subs.map (fun p => elemInts p.2)).flatten

/-- How often the parser state references the id `k`, in either sign. -/
def refCnt (st : PSt) (k : Int) : Nat := (allRefs st).countP (refP k)

/-- The state invariant of `parse_formula`: the counter dominates every
allocated id, subformula keys are distinct and disjoint from variable ids,
operand references point strictly below their key, and no id is referenced
more than once across the stack and the subformula map. -/
structure Inv (st : PSt) : Prop where
  hcnt : 1 ≤ st.cnt
  hkey : ∀ p ∈ st.subs, 1 ≤ p.1 ∧ p.1 < st.cnt
  hop : ∀ p ∈ st.subs, ∀ o ∈ elemInts p.2,
    1 ≤ o.natAbs ∧ (o.natAbs : Int) < p.1
  hnk : (st.subs.map Prod.fst).Nodup
  hvar : ∀ p ∈ st.vars, 1 ≤ p.1 ∧ p.1 < st.cnt
  hv2i : ∀ p ∈ st.v2i, 1 ≤ p.2 ∧ p.2 < st.cnt
  hdisj : ∀ p ∈ st.subs, ∀ q ∈ st.vars, p.1 ≠ q.1
  hv2iv : ∀ p ∈ st.v2i, ∃ q ∈ st.vars, q.1 = p.2
  hstk : ∀ o ∈ elemInts st.stack, 1 ≤ o.natAbs ∧ (o.natAbs : Int) < st.cnt
  href : ∀ p ∈ st.subs, refCnt st p.1 ≤ 1

theorem v2iLookup_mem {m : List (String × Int)} {s : String} {v : Int}
    (h : v2iLookup m s = some v) : ∃ q ∈ m, q.2 = v := by
  induction m with
  | nil => simp [v2iLookup] at h
  | cons p rest ih =>
    obtain ⟨a, b⟩ := p
    rw [v2iLookup] at h
    split at h
    · exact ⟨(a, b), List.mem_cons_self _ _, by simpa using h⟩
    · obtain ⟨q, hq, hqv⟩ := ih h
      exact ⟨q, List.mem_cons_of_mem _ hq, hqv⟩

/-- Bounds and provenance of `get_variable_number` results: the id is
allocated (positive magnitude below the counter), and it can refer to a
subformula key only when the element already was that integer. -/
theorem gv_bounds {st : PSt} (hI : Inv st) {e : Elem} {v : Int}
    (h : getVariableNumber st e = some v) :
    1 ≤ v.natAbs ∧ (v.natAbs : Int) < st.cnt ∧
      (∀ p ∈ st.subs, p.1 = (v.natAbs : Int) → e = Elem.int v) := by
  cases e with
  | paren => simp [getVariableNumber] at h
  | int n =>
    rw [getVariableNumber] at h
    split at h
    · rename_i hreg
      have hnv : n = v := by simpa using h
      rw [Bool.or_eq_true, List.any_eq_true, List.any_eq_true] at hreg
      have hb : 1 ≤ n.natAbs ∧ (n.natAbs : Int) < st.cnt := by
        rcases hreg with ⟨p, hp, hpk⟩ | ⟨p, hp, hpk⟩
        · have h1 := hI.hkey p hp
          have hk : p.1 = (n.natAbs : Int) := of_decide_eq_true hpk
          omega
        · have h1 := hI.hvar p hp
          have hk : p.1 = (n.natAbs : Int) := of_decide_eq_true hpk
          omega
      exact hnv ▸ ⟨hb.1, hb.2, fun p hp hpk => rfl⟩
    · exact absurd h (by simp)
  | str s =>
    rw [getVariableNumber] at h
    obtain ⟨q, hq, hqv⟩ := v2iLookup_mem h
    have hb := hI.hv2i q hq
    rw [hqv] at hb
    have hna : (v.natAbs : Int) = v := Int.natAbs_of_nonneg (by omega)
    refine ⟨by omega, by omega, fun p hp hpk => ?_⟩
    obtain ⟨q2, hq2, hq2v⟩ := hI.hv2iv q hq
    rw [hqv] at hq2v
    exact absurd (hpk.trans (hna.trans hq2v.symm)) (hI.hdisj p hp q2 hq2)

theorem gv_int {st : PSt} {n v : Int}
    (h : getVariableNumber st (.int n) = some v) : v = n := by
  rw [getVariableNumber] at h
  split at h
  · simpa using h.symm
  · exact absurd h (by simp)

theorem countP_flatten (p : Int → Bool) (L : List (List Int)) :
    L.flatten.countP p = (L.map (fun l => l.countP p)).sum := by
  induction L with
  | nil => simp
  | cons a t ih => simp [List.countP_append, ih]

theorem mem_le_mapsum {α : Type} (f : α → Nat) {a : α} :
    ∀ {L : List α}, a ∈ L → f a ≤ (L.map f).sum := by
  intro L
  induction L with
  | nil => intro h; simp at h
  | cons c t ih =>
    intro h
    rw [List.map_cons, List.sum_cons]
    rcases List.mem_cons.mp h with rfl | h
    · exact Nat.le_add_right _ _
    · exact le_trans (ih h) (Nat.le_add_left _ _)

theorem two_mem_le_mapsum {α : Type} (f : α → Nat) {a b : α} :
    ∀ {L : List α}, a ∈ L → b ∈ L → a ≠ b →
      f a + f b ≤ (L.map f).sum := by
  intro L
  induction L with
  | nil => intro h; simp at h
  | cons c t ih =>
    intro ha hb hne
    have hsum : ((c :: t).map f).sum = f c + (t.map f).sum := by simp
    rcases List.mem_cons.mp ha with h1 | h1
    · have hbt : b ∈ t := by
        rcases List.mem_cons.mp hb with h2 | h2
        · exact absurd (h1.trans h2.symm) hne
        · exact h2
      have h3 := mem_le_mapsum f hbt
      rw [h1]
      omega
    · rcases List.mem_cons.mp hb with h2 | h2
      · have h3 := mem_le_mapsum f h1
        rw [h2]
        omega
      · have h3 := ih h1 h2 hne
        omega

theorem two_mem_length {α : Type} {a b : α} :
    ∀ {L : List α}, a ∈ L → b ∈ L → a ≠ b → 2 ≤ L.length := by
  intro L
  induction L with
  | nil => intro h; simp at h
  | cons c t ih =>
    intro ha hb hne
    rcases List.mem_cons.mp ha with rfl | ha
    · have hbt : b ∈ t := by
        rcases List.mem_cons.mp hb with rfl | hbt
        · exact absurd rfl hne
        · exact hbt
      have := List.length_pos.mpr (List.ne_nil_of_mem hbt)
      simp only [List.length_cons]
      omega
    · have := List.length_pos.mpr (List.ne_nil_of_mem ha)
      simp only [List.length_cons]
      omega

theorem two_mem_countP {p : Int → Bool} {a b : Int} {L : List Int}
    (ha : a ∈ L) (hb : b ∈ L) (hne : a ≠ b) (hpa : p a = true)
    (hpb : p b = true) : 2 ≤ L.countP p := by
  rw [List.countP_eq_length_filter]
  exact two_mem_length (List.mem_filter.mpr ⟨ha, hpa⟩)
    (List.mem_filter.mpr ⟨hb, hpb⟩) hne

theorem countP_pos_of_mem {p : Int → Bool} {a : Int} {L : List Int}
    (ha : a ∈ L) (hpa : p a = true) : 1 ≤ L.countP p := by
  rw [List.countP_eq_length_filter]
  exact List.length_pos.mpr (List.ne_nil_of_mem (List.mem_filter.mpr ⟨ha, hpa⟩))

theorem mem_elemInts {l : List Elem} {n : Int} :
    n ∈ elemInts l ↔ Elem.int n ∈ l := by
  rw [elemInts, List.mem_filterMap]
  constructor
  · rintro ⟨e, he, hme⟩
    cases e with
    | paren => simp at hme
    | str s => simp at hme
    | int m =>
      obtain rfl : m = n := by simpa using hme
      exact he
  · intro h
    exact ⟨.int n, h, rfl⟩

/-- The operand-resolution loop of the subformula branch: operators pass
through unchanged, everything else is replaced by its id; the result only
holds allocated ids, and the references it makes to subformula keys are
exactly those the original elements already made. -/
theorem resolveAll_facts {st : PSt} (hI : Inv st) :
    ∀ {l temp : List Elem}, resolveAll st l = some temp →
      (∀ o ∈ elemInts temp, 1 ≤ o.natAbs ∧ (o.natAbs : Int) < st.cnt) ∧
      (∀ k ∈ st.subs.map Prod.fst,
        (elemInts temp).countP (refP k) = (elemInts l).countP (refP k)) := by
  intro l
  induction l with
  | nil =>
    intro temp h
    obtain rfl : temp = [] := by simpa [resolveAll] using h.symm
    exact ⟨by simp [elemInts], fun k hk => rfl⟩
  | cons e es ih =>
    intro temp h
    rw [resolveAll] at h
    split at h
    rotate_left
    · exact absurd h (by simp)
    rename_i b bs hb hbs
    obtain rfl : b :: bs = temp := by simpa using h
    obtain ⟨ihb, ihc⟩ := ih hbs
    split at hb
    · rename_i hop
      obtain rfl : e = b := by simpa using hb
      have hstr : ∃ s, e = Elem.str s := by
        cases e with
        | str s => exact ⟨s, rfl⟩
        | paren => simp [elemIsOperator] at hop
        | int n => simp [elemIsOperator] at hop
      obtain ⟨s, rfl⟩ := hstr
      refine ⟨by simpa [elemInts_str_cons] using ihb, fun k hk => ?_⟩
      rw [elemInts_str_cons, elemInts_str_cons]
      exact ihc k hk
    · rename_i hop
      rcases hgv : getVariableNumber st e with _ | v
      · rw [hgv] at hb
        exact absurd hb (by simp)
      rw [hgv] at hb
      obtain rfl : b = Elem.int v := by simpa using hb.symm
      have hgb := gv_bounds hI hgv
      refine ⟨?_, ?_⟩
      · intro o ho
        rw [elemInts_int_cons] at ho
        rcases List.mem_cons.mp ho with rfl | ho
        · exact ⟨hgb.1, hgb.2.1⟩
        · exact ihb o ho
      · intro k hk
        rw [elemInts_int_cons, List.countP_cons]
        cases e with
        | paren => simp [getVariableNumber] at hgv
        | int n =>
          obtain rfl : v = n := gv_int hgv
          rw [elemInts_int_cons, List.countP_cons, ihc k hk]
        | str s =>
          rw [elemInts_str_cons, ihc k hk]
          have hrf : refP k v = false := by
            by_contra hcon
            rw [Bool.not_eq_false] at hcon
            obtain ⟨p, hp, rfl⟩ := List.mem_map.mp hk
            have hkpos := (hI.hkey p hp).1
            have h1 : v = p.1 ∨ v = -p.1 := by
              rw [refP, Bool.or_eq_true, decide_eq_true_eq,
                decide_eq_true_eq] at hcon
              exact hcon
            have habs : p.1 = (v.natAbs : Int) := by
              rcases h1 with rfl | rfl
              · exact (Int.natAbs_of_nonneg (by omega)).symm
              · rw [Int.natAbs_neg]
                exact (Int.natAbs_of_nonneg (by omega)).symm
            exact absurd (hgb.2.2 p hp habs) (by simp)
          rw [hrf]
          simp

theorem refP_false_of_lt {c o : Int} (hc : 1 ≤ c)
    (ho : (o.natAbs : Int) < c) : refP c o = false := by
  rw [refP]
  simp only [Bool.or_eq_false_iff, decide_eq_false_iff_not]
  have h1 : o ≤ (o.natAbs : Int) := Int.le_natAbs
  have h2 : -o ≤ (o.natAbs : Int) := by
    rw [← Int.natAbs_neg]
    exact Int.le_natAbs
  constructor
  · rintro rfl
    omega
  · rintro rfl
    omega

theorem refP_false_of_gt {c o : Int} (hc : 1 ≤ c) (ho : c < o) :
    refP c o = false := by
  rw [refP]
  simp only [Bool.or_eq_false_iff, decide_eq_false_iff_not]
  omega

theorem refP_self (c : Int) : refP c c = true := by simp [refP]

theorem countP_elemInts_cons_ge (p : Int → Bool) (d : Elem) (l : List Elem) :
    (elemInts l).countP p ≤ (elemInts (d :: l)).countP p := by
  cases d with
  | paren => rw [elemInts_paren_cons]
  | str s => rw [elemInts_str_cons]
  | int n =>
    rw [elemInts_int_cons, List.countP_cons]
    omega

/-- One parser step preserves the invariant. -/
theorem parseStep_inv {st st' : PSt} {tok : String} (hI : Inv st)
    (h : parseStep st tok = some st') : Inv st' := by
  rw [parseStep] at h
  split at h
  · obtain rfl := Option.some.inj h
    exact ⟨hI.hcnt, hI.hkey, hI.hop, hI.hnk, hI.hvar, hI.hv2i, hI.hdisj,
      hI.hv2iv, hI.hstk, hI.href⟩
  · split at h
    · -- the closing-bracket branch
      split at h
      · exact absurd h (by simp)
      rename_i d rest hdrop
      split at h
      · exact absurd h (by simp)
      rename_i e₀ etail hrev
      have hsplit : st.stack
          = st.stack.takeWhile (fun e => decide (e ≠ Elem.paren))
            ++ (d :: rest) := by
        rw [← hdrop]
        exact (List.takeWhile_append_dropWhile _ _).symm
      have hstack_ints : ∀ p : Int → Bool, (elemInts st.stack).countP p
            = (elemInts (st.stack.takeWhile
                (fun e => decide (e ≠ Elem.paren)))).countP p
              + (elemInts (d :: rest)).countP p := by
        intro p
        conv_lhs => rw [hsplit]
        rw [elemInts_append, List.countP_append]
      split at h
      · -- the not branch
        split at h
        · exact absurd h (by simp)
        rename_i e₁ hhead
        split at h
        · exact absurd h (by simp)
        rename_i v hgv
        obtain rfl := Option.some.inj h
        have hgb := gv_bounds hI hgv
        have he₁tw : e₁ ∈ st.stack.takeWhile (fun e => decide (e ≠ Elem.paren)) := by
          rw [← List.mem_reverse, hrev]
          refine List.mem_cons_of_mem _ ?_
          cases etail with
          | nil => simp at hhead
          | cons a t =>
            obtain rfl : a = e₁ := by simpa using hhead
            exact List.mem_cons_self _ _
      -- the remaining goal: Inv of the new state
        refine ⟨hI.hcnt, hI.hkey, hI.hop, hI.hnk, hI.hvar, hI.hv2i, hI.hdisj,
          hI.hv2iv, ?_, ?_⟩
        · intro o ho
          have ho2 : o ∈ -v :: elemInts rest := ho
          rcases List.mem_cons.mp ho2 with rfl | ho3
          · exact ⟨by simpa [Int.natAbs_neg] using hgb.1,
              by simpa [Int.natAbs_neg] using hgb.2.1⟩
          · refine hI.hstk o ?_
            rw [mem_elemInts] at ho3 ⊢
            rw [hsplit]
            exact List.mem_append_right _ (List.mem_cons_of_mem _ ho3)
        · intro p hp
          have hb := hI.href p hp
          rw [refCnt, allRefs, List.countP_append] at hb ⊢
          rw [hstack_ints] at hb
          dsimp only
          rw [elemInts_int_cons, List.countP_cons]
          by_cases hvk : refP p.1 (-v) = true
          · have hkpos := (hI.hkey p hp).1
            have hvabs : p.1 = (v.natAbs : Int) := by
              rw [refP, Bool.or_eq_true, decide_eq_true_eq,
                decide_eq_true_eq] at hvk
              rcases hvk with hvk | hvk
              · rw [show v = -p.1 by omega, Int.natAbs_neg]
                exact (Int.natAbs_of_nonneg (by omega)).symm
              · rw [show v = p.1 by omega]
                exact (Int.natAbs_of_nonneg (by omega)).symm
            have he₁int : e₁ = Elem.int v := hgb.2.2 p hp hvabs
            have hvtw : v ∈ elemInts (st.stack.takeWhile
                (fun e => decide (e ≠ Elem.paren))) := by
              rw [mem_elemInts]
              rw [he₁int] at he₁tw
              exact he₁tw
            have hvp : refP p.1 v = true := by
              rw [refP, Bool.or_eq_true, decide_eq_true_eq,
                decide_eq_true_eq] at hvk ⊢
              omega
            have h1 := countP_pos_of_mem hvtw hvp
            have h2 := countP_elemInts_cons_ge (refP p.1) d rest
            rw [hvk, if_pos rfl]
            omega
          · rw [Bool.not_eq_true] at hvk
            rw [hvk, if_neg Bool.false_ne_true]
            have h1 := countP_elemInts_cons_ge (refP p.1) d rest
            omega
      · -- the subformula branch
        split at h
        · exact absurd h (by simp)
        rename_i temp hmap
        obtain rfl := Option.some.inj h
        obtain ⟨htb, htc⟩ := resolveAll_facts hI hmap
        have htw : ∀ p : Int → Bool, (elemInts (e₀ :: etail)).countP p
            = (elemInts (st.stack.takeWhile
                (fun e => decide (e ≠ Elem.paren)))).countP p := by
          intro p
          refine List.Perm.countP_eq _ ?_
          refine List.Perm.filterMap _ ?_
          rw [← hrev]
          exact List.reverse_perm _
        constructor <;> try dsimp only
        · have := hI.hcnt
          omega
        · intro p hp
          rcases List.mem_append.mp hp with hp | hp
          · have := hI.hkey p hp
            exact ⟨this.1, by omega⟩
          · obtain rfl : p = (st.cnt, temp) := by simpa using hp
            exact ⟨hI.hcnt, by omega⟩
        · intro p hp
          rcases List.mem_append.mp hp with hp | hp
          · exact hI.hop p hp
          · obtain rfl : p = (st.cnt, temp) := by simpa using hp
            exact htb
        · rw [List.map_append]
          rw [List.nodup_append]
          refine ⟨hI.hnk, by simp, ?_⟩
          intro a ha hb
          obtain ⟨p, hp, rfl⟩ := List.mem_map.mp ha
          have h1 := (hI.hkey p hp).2
          have h2 : p.1 = st.cnt := by simpa using hb
          omega
        · intro p hp
          have := hI.hvar p hp
          exact ⟨this.1, by omega⟩
        · intro p hp
          have := hI.hv2i p hp
          exact ⟨this.1, by omega⟩
        · intro p hp q hq
          rcases List.mem_append.mp hp with hp | hp
          · exact hI.hdisj p hp q hq
          · obtain rfl : p = (st.cnt, temp) := by simpa using hp
            have := hI.hvar q hq
            show st.cnt ≠ q.1
            omega
        · exact hI.hv2iv
        · intro o ho
          have ho2 : o ∈ st.cnt :: elemInts rest := ho
          rcases List.mem_cons.mp ho2 with rfl | ho3
          · refine ⟨?_, ?_⟩
            · have := hI.hcnt
              omega
            · rw [Int.natAbs_of_nonneg (by have := hI.hcnt; omega)]
              omega
          · have hrest : o ∈ elemInts st.stack := by
              rw [mem_elemInts] at ho3 ⊢
              rw [hsplit]
              exact List.mem_append_right _ (List.mem_cons_of_mem _ ho3)
            have := hI.hstk o hrest
            exact ⟨this.1, by omega⟩
        · intro p hp
          rcases List.mem_append.mp hp with hp | hp
          · -- an old key: the references only move around
            have hb := hI.href p hp
            rw [refCnt, allRefs, List.countP_append] at hb ⊢
            rw [hstack_ints] at hb
            dsimp only
            rw [elemInts_int_cons, List.countP_cons]
            have hck : refP p.1 st.cnt = false :=
              refP_false_of_gt (hI.hkey p hp).1 (hI.hkey p hp).2
            rw [hck, if_neg Bool.false_ne_true]
            rw [List.map_append, List.flatten_append, List.countP_append]
            have hnewflat : ((([(st.cnt, temp)].map (fun q => elemInts q.2)).flatten).countP (refP p.1))
                = (elemInts (e₀ :: etail)).countP (refP p.1) := by
              simp only [List.map_cons, List.map_nil, List.flatten_cons,
                List.flatten_nil, List.append_nil]
              exact htc p.1 (List.mem_map.mpr ⟨p, hp, rfl⟩)
            rw [hnewflat, htw]
            have h1 := countP_elemInts_cons_ge (refP p.1) d rest
            omega
          · -- the fresh key: referenced exactly once, from the stack
            obtain rfl : p = (st.cnt, temp) := by simpa using hp
            show refCnt _ st.cnt ≤ 1
            rw [refCnt, allRefs, List.countP_append]
            dsimp only
            rw [elemInts_int_cons, List.countP_cons, refP_self]
            have hrest0 : (elemInts rest).countP (refP st.cnt) = 0 := by
              rw [List.countP_eq_zero]
              intro o ho
              have hro : o ∈ elemInts st.stack := by
                rw [mem_elemInts] at ho ⊢
                rw [hsplit]
                exact List.mem_append_right _ (List.mem_cons_of_mem _ ho)
              have := hI.hstk o hro
              simp [refP_false_of_lt hI.hcnt this.2]
            have hflat0 : ((((st.subs ++ [(st.cnt, temp)]).map
                (fun q => elemInts q.2)).flatten).countP (refP st.cnt)) = 0 := by
              rw [List.countP_eq_zero]
              intro o ho
              rw [List.mem_flatten] at ho
              obtain ⟨L, hL, hoL⟩ := ho
              obtain ⟨q, hq, rfl⟩ := List.mem_map.mp hL
              rcases List.mem_append.mp hq with hq | hq
              · have h1 := hI.hop q hq o hoL
                have h2 := (hI.hkey q hq).2
                have h3 : refP st.cnt o = false :=
                  refP_false_of_lt hI.hcnt (by omega)
                simp [h3]
              · obtain rfl : q = (st.cnt, temp) := by simpa using hq
                have := htb o hoL
                simp [refP_false_of_lt hI.hcnt this.2]
            rw [hrest0, hflat0]
            simp
    · -- a plain token
      split at h
      · obtain rfl := Option.some.inj h
        rename_i hnew
        refine ⟨?_, ?_, hI.hop, hI.hnk, ?_, ?_, ?_, ?_, ?_, ?_⟩ <;> try dsimp only
        · have := hI.hcnt
          omega
        · intro p hp
          have := hI.hkey p hp
          exact ⟨this.1, by omega⟩
        · intro p hp
          rcases List.mem_append.mp hp with hp | hp
          · have := hI.hvar p hp
            exact ⟨this.1, by omega⟩
          · obtain rfl : p = (st.cnt, tok) := by simpa using hp
            exact ⟨hI.hcnt, by omega⟩
        · intro p hp
          rcases List.mem_append.mp hp with hp | hp
          · have := hI.hv2i p hp
            exact ⟨this.1, by omega⟩
          · obtain rfl : p = (tok, st.cnt) := by simpa using hp
            exact ⟨hI.hcnt, by omega⟩
        · intro p hp q hq
          rcases List.mem_append.mp hq with hq | hq
          · exact hI.hdisj p hp q hq
          · obtain rfl : q = (st.cnt, tok) := by simpa using hq
            have := (hI.hkey p hp).2
            show p.1 ≠ st.cnt
            omega
        · intro p hp
          rcases List.mem_append.mp hp with hp | hp
          · obtain ⟨q, hq, hqv⟩ := hI.hv2iv p hp
            exact ⟨q, List.mem_append_left _ hq, hqv⟩
          · obtain rfl : p = (tok, st.cnt) := by simpa using hp
            exact ⟨(st.cnt, tok), List.mem_append_right _ (by simp), rfl⟩
        · intro o ho
          have := hI.hstk o ho
          exact ⟨this.1, by omega⟩
        · exact hI.href
      · obtain rfl := Option.some.inj h
        exact ⟨hI.hcnt, hI.hkey, hI.hop, hI.hnk, hI.hvar, hI.hv2i, hI.hdisj,
          hI.hv2iv, hI.hstk, hI.href⟩

theorem initSt_inv : Inv initSt := by
  refine ⟨le_refl _, ?_, ?_, ?_, ?_, ?_, ?_, ?_, ?_, ?_⟩ <;>
    simp [initSt, refCnt, allRefs, elemInts]

theorem foldlM_inv : ∀ {toks : List String} {st st' : PSt}, Inv st →
    toks.foldlM parseStep st = some st' → Inv st' := by
  intro toks
  induction toks with
  | nil =>
    intro st st' hI h
    obtain rfl : st = st' := by simpa using h
    exact hI
  | cons t ts ih =>
    intro st st' hI h
    rw [List.foldlM_cons] at h
    rcases hstep : parseStep st t with _ | st₁
    · rw [hstep] at h
      simp at h
    · rw [hstep] at h
      exact ih (parseStep_inv hI hstep) (by simpa using h)

theorem parseFormula_inv {s : String} {st : PSt} {e : Elem}
    (h : parseFormula s = some (st, e)) : Inv st ∧ e ∈ st.stack := by
  rw [parseFormula] at h
  split at h
  · exact absurd h (by simp)
  · rename_i st₀ hfold
    split at h
    · exact absurd h (by simp)
    · rename_i root hlast
      have h3 : st₀ = st ∧ root = e := by simpa using h
      obtain ⟨hst, hroot⟩ := h3
      obtain ⟨hne, heq⟩ := List.mem_getLast?_eq_getLast
        (show root ∈ st₀.stack.getLast? from by rw [hlast]; rfl)
      rw [← hst, ← hroot]
      refine ⟨foldlM_inv initSt_inv hfold, ?_⟩
      rw [heq]
      exact List.getLast_mem hne

/-- The node ids `tseitin_transform` visits and emits clauses for,
starting from a literal. -/
def visited (subs : List (Int × List Elem)) : Nat → Int → List Int
  | 0, _ => []
  | fuel + 1, x =>
    match nodeOf subs x with
    | none => []
    | some (_, l, r) => x :: (visited subs fuel l ++ visited subs fuel r)

/-- Well-formedness of the subformula map: keys are positive and operand
references point strictly below their key. -/
def SubsWf (subs : List (Int × List Elem)) : Prop :=
  ∀ p ∈ subs, 1 ≤ p.1 ∧ ∀ o ∈ elemInts p.2,
    1 ≤ o.natAbs ∧ (o.natAbs : Int) < p.1

/-- Bottom-up recomputation of the values of the visited nodes; every
other id keeps its value under `w`. -/
def fixv (subs : List (Int × List Elem)) (V : List Int) (w : Int → Bool) :
    Nat → Int → Bool
  | 0, x => w x
  | fuel + 1, x =>
    if x ∈ V then
      match nodeOf subs x with
      | some (op, l, r) =>
        if op = "and" then
          (if l < 0 then !(fixv subs V w fuel (-l)) else fixv subs V w fuel l)
            && (if r < 0 then !(fixv subs V w fuel (-r))
              else fixv subs V w fuel r)
        else
          (if l < 0 then !(fixv subs V w fuel (-l)) else fixv subs V w fuel l)
            || (if r < 0 then !(fixv subs V w fuel (-r))
              else fixv subs V w fuel r)
      | none => w x
    else w x

/-- The repaired valuation built from a model of the left-to-right
clauses. -/
def wfix (subs : List (Int × List Elem)) (V : List Int) (w : Int → Bool)
    (v : Int) : Bool := fixv subs V w (v.natAbs + 1) v

theorem slookup_eq_none {subs : List (Int × List Elem)} {x : Int}
    (h : ∀ p ∈ subs, p.1 ≠ x) : slookup subs x = none := by
  induction subs with
  | nil => rfl
  | cons p rest ih =>
    obtain ⟨k, v⟩ := p
    rw [slookup, if_neg (h (k, v) (List.mem_cons_self _ _))]
    exact ih (fun q hq => h q (List.mem_cons_of_mem _ hq))

theorem nodeOf_neg {subs : List (Int × List Elem)} (hW : SubsWf subs)
    {x : Int} (hx : x ≤ 0) : nodeOf subs x = none := by
  have h : slookup subs x = none := by
    refine slookup_eq_none (fun p hp => ?_)
    have := (hW p hp).1
    omega
  rw [nodeOf, h]

theorem nodeOf_mem {subs : List (Int × List Elem)} {x : Int} {op : String}
    {l r : Int} (h : nodeOf subs x = some (op, l, r)) :
    ∃ sf, (x, sf) ∈ subs ∧ l ∈ elemInts sf ∧ r ∈ elemInts sf ∧
      (op = "and" ∨ op = "or") := by
  obtain ⟨sf, hsl, hh, h1, h2, hor⟩ := nodeOf_some h
  exact ⟨sf, slookup_mem hsl, mem_elemInts_of_get h1,
    mem_elemInts_of_get h2, hor⟩

theorem nodeOf_bounds {subs : List (Int × List Elem)} (hW : SubsWf subs)
    {x : Int} {op : String} {l r : Int}
    (h : nodeOf subs x = some (op, l, r)) :
    1 ≤ x ∧ 1 ≤ l.natAbs ∧ (l.natAbs : Int) < x ∧ 1 ≤ r.natAbs ∧
      (r.natAbs : Int) < x := by
  obtain ⟨sf, hmem, hl, hr, h3⟩ := nodeOf_mem h
  have h1 := hW (x, sf) hmem
  exact ⟨h1.1, (h1.2 l hl).1, (h1.2 l hl).2, (h1.2 r hr).1, (h1.2 r hr).2⟩

theorem fixv_none {subs : List (Int × List Elem)} {V : List Int}
    {w : Int → Bool} {x : Int} (hn : nodeOf subs x = none) :
    ∀ fuel, fixv subs V w fuel x = w x := by
  intro fuel
  cases fuel with
  | zero => rfl
  | succ f =>
    rw [fixv]
    split
    · rw [hn]
    · rfl

theorem fixv_not_mem {subs : List (Int × List Elem)} {V : List Int}
    {w : Int → Bool} {x : Int} (hx : x ∉ V) :
    ∀ fuel, fixv subs V w fuel x = w x := by
  intro fuel
  cases fuel with
  | zero => rfl
  | succ f => rw [fixv, if_neg hx]

theorem fixv_succ_node {subs : List (Int × List Elem)} {V : List Int}
    {w : Int → Bool} {x : Int} {op : String} {l r : Int} {f : Nat}
    (hv : x ∈ V) (hnd : nodeOf subs x = some (op, l, r)) :
    fixv subs V w (f + 1) x
      = (if op = "and" then
          (if l < 0 then !(fixv subs V w f (-l)) else fixv subs V w f l)
            && (if r < 0 then !(fixv subs V w f (-r))
              else fixv subs V w f r)
        else
          (if l < 0 then !(fixv subs V w f (-l)) else fixv subs V w f l)
            || (if r < 0 then !(fixv subs V w f (-r))
              else fixv subs V w f r)) := by
  rw [fixv, if_pos hv]
  simp only [hnd]

/-- Beyond the magnitude of the argument, the fuel does not matter. -/
theorem fixv_stable {subs : List (Int × List Elem)} {V : List Int}
    {w : Int → Bool} (hW : SubsWf subs) :
    ∀ {n : Nat} {x : Int} {f₁ f₂ : Nat}, x.natAbs ≤ n →
      x.natAbs ≤ f₁ → x.natAbs ≤ f₂ →
      fixv subs V w f₁ x = fixv subs V w f₂ x := by
  intro n
  induction n with
  | zero =>
    intro x f₁ f₂ hn h1 h2
    have hx : x = 0 := by omega
    subst hx
    have hnone : nodeOf subs 0 = none := nodeOf_neg hW (le_refl 0)
    rw [fixv_none hnone, fixv_none hnone]
  | succ n ih =>
    intro x f₁ f₂ hn h1 h2
    by_cases hv : x ∈ V
    swap
    · rw [fixv_not_mem hv, fixv_not_mem hv]
    rcases hnd : nodeOf subs x with _ | ⟨op, l, r⟩
    · rw [fixv_none hnd, fixv_none hnd]
    have hb := nodeOf_bounds hW hnd
    have hxabs : (x.natAbs : Int) = x := Int.natAbs_of_nonneg (by omega)
    have hx1 : 1 ≤ x.natAbs := by
      by_contra hcon
      have hx0 : x.natAbs = 0 := by omega
      rw [hx0] at hxabs
      omega
    have hla : l.natAbs < x.natAbs := by
      have : (l.natAbs : Int) < (x.natAbs : Int) := by
        rw [hxabs]
        exact hb.2.2.1
      exact_mod_cast this
    have hra : r.natAbs < x.natAbs := by
      have : (r.natAbs : Int) < (x.natAbs : Int) := by
        rw [hxabs]
        exact hb.2.2.2.2
      exact_mod_cast this
    cases f₁ with
    | zero => omega
    | succ a =>
      cases f₂ with
      | zero => omega
      | succ b =>
        rw [fixv_succ_node hv hnd, fixv_succ_node hv hnd]
        have hfl : (if l < 0 then !(fixv subs V w a (-l))
              else fixv subs V w a l)
            = (if l < 0 then !(fixv subs V w b (-l))
              else fixv subs V w b l) := by
          have hnl : (-l).natAbs = l.natAbs := Int.natAbs_neg l
          by_cases hls : l < 0
          · rw [if_pos hls, if_pos hls,
              ih (show (-l).natAbs ≤ n by omega)
                (show (-l).natAbs ≤ a by omega)
                (show (-l).natAbs ≤ b by omega)]
          · rw [if_neg hls, if_neg hls,
              ih (show l.natAbs ≤ n by omega)
                (show l.natAbs ≤ a by omega)
                (show l.natAbs ≤ b by omega)]
        have hfr : (if r < 0 then !(fixv subs V w a (-r))
              else fixv subs V w a r)
            = (if r < 0 then !(fixv subs V w b (-r))
              else fixv subs V w b r) := by
          have hnr : (-r).natAbs = r.natAbs := Int.natAbs_neg r
          by_cases hrs : r < 0
          · rw [if_pos hrs, if_pos hrs,
              ih (show (-r).natAbs ≤ n by omega)
                (show (-r).natAbs ≤ a by omega)
                (show (-r).natAbs ≤ b by omega)]
          · rw [if_neg hrs, if_neg hrs,
              ih (show r.natAbs ≤ n by omega)
                (show r.natAbs ≤ a by omega)
                (show r.natAbs ≤ b by omega)]
        rw [hfl, hfr]

theorem wfix_not_mem {subs : List (Int × List Elem)} {V : List Int}
    {w : Int → Bool} {v : Int} (h : v ∉ V) : wfix subs V w v = w v := by
  rw [wfix, fixv_not_mem h]

theorem wfix_none {subs : List (Int × List Elem)} {V : List Int}
    {w : Int → Bool} {v : Int} (h : nodeOf subs v = none) :
    wfix subs V w v = w v := by
  rw [wfix, fixv_none h]

theorem litVal_flip (w : Int → Bool) {o : Int} (h : o ≠ 0) :
    Dpll.litVal w (-o) = !(Dpll.litVal w o) := by
  rw [Dpll.litVal, Dpll.litVal]
  rcases lt_or_gt_of_ne h with ho | ho
  · rw [if_pos (by omega), if_neg (by omega), Bool.not_not]
  · rw [if_neg (by omega), if_pos (by omega), neg_neg]

/-- At a visited node the repaired valuation is exactly the recomputed
combination of the operand literal values. -/
theorem wfix_node {subs : List (Int × List Elem)} {V : List Int}
    (w : Int → Bool) (hW : SubsWf subs) {x : Int} {op : String} {l r : Int}
    (hv : x ∈ V) (hnd : nodeOf subs x = some (op, l, r)) :
    wfix subs V w x = (if op = "and"
      then Dpll.litVal (wfix subs V w) l && Dpll.litVal (wfix subs V w) r
      else Dpll.litVal (wfix subs V w) l || Dpll.litVal (wfix subs V w) r)
    := by
  have hb := nodeOf_bounds hW hnd
  have hxabs : (x.natAbs : Int) = x := Int.natAbs_of_nonneg (by omega)
  rw [wfix, fixv_succ_node hv hnd]
  have hlv : ∀ o : Int, 1 ≤ o.natAbs → (o.natAbs : Int) < x →
      (if o < 0 then !(fixv subs V w x.natAbs (-o))
        else fixv subs V w x.natAbs o)
        = Dpll.litVal (wfix subs V w) o := by
    intro o h1 h2
    have hoa : o.natAbs < x.natAbs := by
      have : (o.natAbs : Int) < (x.natAbs : Int) := by omega
      exact_mod_cast this
    have hna : (-o).natAbs = o.natAbs := Int.natAbs_neg o
    by_cases hs : o < 0
    · rw [if_pos hs]
      have hst : fixv subs V w x.natAbs (-o)
          = fixv subs V w ((-o).natAbs + 1) (-o) :=
        fixv_stable hW (le_refl ((-o).natAbs))
          (show (-o).natAbs ≤ x.natAbs by omega)
          (Nat.le_succ ((-o).natAbs))
      rw [Dpll.litVal, if_neg (by omega), wfix, hst]
    · rw [if_neg hs]
      have hst : fixv subs V w x.natAbs o
          = fixv subs V w (o.natAbs + 1) o :=
        fixv_stable hW (le_refl o.natAbs)
          (show o.natAbs ≤ x.natAbs by omega)
          (Nat.le_succ o.natAbs)
      rw [Dpll.litVal, if_pos (by omega), wfix, hst]
  rw [hlv l hb.2.1 hb.2.2.1, hlv r hb.2.2.2.1 hb.2.2.2.2]

theorem visited_none {subs : List (Int × List Elem)} {x : Int}
    (hn : nodeOf subs x = none) :
    ∀ {fuel : Nat}, visited subs fuel x = [] := by
  intro fuel
  cases fuel with
  | zero => rfl
  | succ f => rw [visited, hn]

theorem visited_node {subs : List (Int × List Elem)} {x : Int} {op : String}
    {l r : Int} {f : Nat} (hn : nodeOf subs x = some (op, l, r)) :
    visited subs (f + 1) x = x :: (visited subs f l ++ visited subs f r) := by
  rw [visited, hn]

theorem visited_good {subs : List (Int × List Elem)} :
    ∀ {fuel : Nat} {x y : Int}, y ∈ visited subs fuel x →
      ∃ t, nodeOf subs y = some t := by
  intro fuel
  induction fuel with
  | zero =>
    intro x y hy
    simp [visited] at hy
  | succ f ih =>
    intro x y hy
    rcases hnd : nodeOf subs x with _ | ⟨op, l, r⟩
    · rw [visited_none hnd] at hy
      simp at hy
    · rw [visited_node hnd] at hy
      rcases List.mem_cons.mp hy with rfl | hy
      · exact ⟨_, hnd⟩
      · rcases List.mem_append.mp hy with hy | hy
        · exact ih hy
        · exact ih hy

theorem visited_parent {subs : List (Int × List Elem)} :
    ∀ {fuel : Nat} {x y : Int}, y ∈ visited subs fuel x →
      y = x ∨ ∃ z op a b, z ∈ visited subs fuel x ∧
        nodeOf subs z = some (op, a, b) ∧ (y = a ∨ y = b) := by
  intro fuel
  induction fuel with
  | zero =>
    intro x y hy
    simp [visited] at hy
  | succ f ih =>
    intro x y hy
    rcases hnd : nodeOf subs x with _ | ⟨op, l, r⟩
    · rw [visited_none hnd] at hy
      simp at hy
    · have hxx : x ∈ visited subs (f + 1) x := by
        rw [visited_node hnd]
        exact List.mem_cons_self _ _
      have hsubl : ∀ t, t ∈ visited subs f l → t ∈ visited subs (f + 1) x := by
        intro t ht
        rw [visited_node hnd]
        exact List.mem_cons_of_mem _ (List.mem_append_left _ ht)
      have hsubr : ∀ t, t ∈ visited subs f r → t ∈ visited subs (f + 1) x := by
        intro t ht
        rw [visited_node hnd]
        exact List.mem_cons_of_mem _ (List.mem_append_right _ ht)
      rw [visited_node hnd] at hy
      rcases List.mem_cons.mp hy with rfl | hy
      · exact Or.inl rfl
      rcases List.mem_append.mp hy with hy | hy
      · rcases ih hy with h5 | ⟨z, op2, a, b, hz, hn2, hab⟩
        · exact Or.inr ⟨x, op, l, r, hxx, hnd, Or.inl h5⟩
        · exact Or.inr ⟨z, op2, a, b, hsubl z hz, hn2, hab⟩
      · rcases ih hy with h5 | ⟨z, op2, a, b, hz, hn2, hab⟩
        · exact Or.inr ⟨x, op, l, r, hxx, hnd, Or.inr h5⟩
        · exact Or.inr ⟨z, op2, a, b, hsubr z hz, hn2, hab⟩

theorem mem_keys_nodup_eq {subs : List (Int × List Elem)}
    (hnd : (subs.map Prod.fst).Nodup) {k : Int} {u v : List Elem}
    (hu : (k, u) ∈ subs) (hv : (k, v) ∈ subs) : u = v := by
  induction subs with
  | nil => simp at hu
  | cons p rest ih =>
    rw [List.map_cons, List.nodup_cons] at hnd
    rcases List.mem_cons.mp hu with rfl | hu2
    · rcases List.mem_cons.mp hv with hv2 | hv2
      · obtain ⟨h1, h2⟩ := Prod.mk.inj hv2
        exact h2.symm
      · exact absurd (List.mem_map.mpr ⟨(k, v), hv2, rfl⟩) hnd.1
    · rcases List.mem_cons.mp hv with rfl | hv2
      · exact absurd (List.mem_map.mpr ⟨(k, u), hu2, rfl⟩) hnd.1
      · exact ih hnd.2 hu2 hv2

/-- An operand referenced with a negative sign inside a stored subformula
is never a visited node: the reference bound admits no second reference to
that key. -/
theorem negsafe_operand {st : PSt} (hI : Inv st) {r₀ : Int}
    (hr : r₀ ∈ elemInts st.stack) {fuel : Nat} {x : Int} {sfx : List Elem}
    (hmemx : (x, sfx) ∈ st.subs) {o : Int} (ho : o ∈ elemInts sfx)
    (hneg : o < 0) (hvis : -o ∈ visited st.subs fuel r₀) : False := by
  obtain ⟨⟨opk, ak, bk⟩, hndk⟩ := visited_good hvis
  obtain ⟨sfk, hmemk, hak, hbk, hork⟩ := nodeOf_mem hndk
  have hle := hI.href (-o, sfk) hmemk
  rw [refCnt, allRefs, List.countP_append] at hle
  dsimp only at hle
  have hkey := (hI.hkey (-o, sfk) hmemk).1
  have hco : refP (-o) o = true := by
    rw [refP]
    simp
  have hcx : 1 ≤ (elemInts sfx).countP (refP (-o)) :=
    countP_pos_of_mem ho hco
  have hflat : ∀ n, n ≤ (elemInts sfx).countP (refP (-o)) →
      n ≤ ((st.subs.map (fun q => elemInts q.2)).flatten).countP (refP (-o)) := by
    intro n hn
    rw [countP_flatten, List.map_map]
    calc n ≤ (elemInts sfx).countP (refP (-o)) := hn
      _ ≤ _ := mem_le_mapsum (fun q => (elemInts q.2).countP (refP (-o))) hmemx
  rcases visited_parent hvis with heq | ⟨z, opz, az, bz, hzv, hndz, hab⟩
  · -- the root literal itself references the key a second time
    have hcs : 1 ≤ (elemInts st.stack).countP (refP (-o)) := by
      refine countP_pos_of_mem ?_ (refP_self _)
      rw [← heq] at hr
      exact hr
    have hcf := hflat 1 hcx
    omega
  · obtain ⟨sfz, hmemz, haz, hbz, horz⟩ := nodeOf_mem hndz
    have hoz : -o ∈ elemInts sfz := by
      rcases hab with rfl | rfl
      · exact haz
      · exact hbz
    by_cases hxz : x = z
    · subst hxz
      have hsf : sfx = sfz := mem_keys_nodup_eq hI.hnk hmemx hmemz
      rw [← hsf] at hoz
      have h2 := two_mem_countP ho hoz (by omega) hco (refP_self _)
      have hcf := hflat 2 h2
      omega
    · have hne : (x, sfx) ≠ (z, sfz) := by
        intro hcon
        exact hxz (congrArg Prod.fst hcon)
      have h2 := two_mem_le_mapsum
        (fun q => (elemInts q.2).countP (refP (-o))) hmemx hmemz hne
      have hcx2 := countP_pos_of_mem ho hco
      have hcz2 := countP_pos_of_mem hoz (refP_self (-o))
      rw [countP_flatten, List.map_map] at hle
      have hle2 : ((elemInts sfx).countP (refP (-o)))
          + ((elemInts sfz).countP (refP (-o)))
          ≤ (List.map ((fun q => (elemInts q.2).countP (refP (-o)))) st.subs).sum := h2
      have hsum_le : (List.map ((fun q => (elemInts q.2).countP (refP (-o)))) st.subs).sum
          ≤ 1 := by
        refine le_trans ?_ hle
        exact Nat.le_add_left _ _
      omega

/-- The repaired valuation satisfies the three equivalence clauses of a
visited node. -/
theorem eq_node_sat {subs : List (Int × List Elem)} {V : List Int}
    {w : Int → Bool} (hW : SubsWf subs) {x : Int} {op : String} {l r : Int}
    (hv : x ∈ V) (hnd : nodeOf subs x = some (op, l, r)) :
    Dpll.cnfVal (wfix subs V w) (stripCNF (nodeClauses "eq" op x l r))
      = true := by
  have hb := nodeOf_bounds hW hnd
  have hid := wfix_node w hW hv hnd
  obtain ⟨sf, hmem, hl, hr, hor⟩ := nodeOf_mem hnd
  have hx0 : x ≠ 0 := by omega
  have hl0 : l ≠ 0 := Int.natAbs_pos.mp (by omega)
  have hr0 : r ≠ 0 := Int.natAbs_pos.mp (by omega)
  have hlitx : Dpll.litVal (wfix subs V w) x = wfix subs V w x := by
    rw [Dpll.litVal, if_pos (by omega)]
  have hnl : Dpll.litVal (wfix subs V w) (-l)
      = !(Dpll.litVal (wfix subs V w) l) := litVal_flip _ hl0
  have hnr : Dpll.litVal (wfix subs V w) (-r)
      = !(Dpll.litVal (wfix subs V w) r) := litVal_flip _ hr0
  have hnx : Dpll.litVal (wfix subs V w) (-x)
      = !(Dpll.litVal (wfix subs V w) x) := litVal_flip _ hx0
  by_cases hand : op = "and"
  · rw [hand] at hid
    rw [if_pos rfl] at hid
    rw [nodeClauses, if_pos hand, if_pos rfl]
    rw [stripCNF]
    simp only [List.map_cons, List.map_nil]
    have hf1 : List.filter (fun z => decide (z ≠ 0)) [-l, -r, x, 0]
        = [-l, -r, x] := by
      simp [List.filter, hl0, hr0, hx0]
    have hf2 : List.filter (fun z => decide (z ≠ 0)) [l, -x, 0]
        = [l, -x] := by
      simp [List.filter, hl0, hx0]
    have hf3 : List.filter (fun z => decide (z ≠ 0)) [r, -x, 0]
        = [r, -x] := by
      simp [List.filter, hr0, hx0]
    rw [hf1, hf2, hf3, Dpll.cnfVal]
    simp only [List.all_cons, List.all_nil, Dpll.clauseVal, List.any_cons,
      List.any_nil, Bool.and_eq_true, Bool.or_eq_true]
    rw [hnl, hnr, hnx, hlitx, hid]
    cases Dpll.litVal (wfix subs V w) l <;>
      cases Dpll.litVal (wfix subs V w) r <;> simp
  · rw [if_neg hand] at hid
    rw [nodeClauses, if_neg hand, if_pos rfl]
    rw [stripCNF]
    simp only [List.map_cons, List.map_nil]
    have hf1 : List.filter (fun z => decide (z ≠ 0)) [l, r, -x, 0]
        = [l, r, -x] := by
      simp [List.filter, hl0, hr0, hx0]
    have hf2 : List.filter (fun z => decide (z ≠ 0)) [-l, x, 0]
        = [-l, x] := by
      simp [List.filter, hl0, hx0]
    have hf3 : List.filter (fun z => decide (z ≠ 0)) [-r, x, 0]
        = [-r, x] := by
      simp [List.filter, hr0, hx0]
    rw [hf1, hf2, hf3, Dpll.cnfVal]
    simp only [List.all_cons, List.all_nil, Dpll.clauseVal, List.any_cons,
      List.any_nil, Bool.and_eq_true, Bool.or_eq_true]
    rw [hnl, hnr, hnx, hlitx, hid]
    cases Dpll.litVal (wfix subs V w) l <;>
      cases Dpll.litVal (wfix subs V w) r <;> simp

/-- The repaired valuation satisfies every clause the equivalence encoding
emits below a literal whose visited nodes all lie in `V`. -/
theorem eq_clauses_sat {subs : List (Int × List Elem)} {V : List Int}
    {w : Int → Bool} (hW : SubsWf subs) :
    ∀ {fuel : Nat} {x : Int} {C : List (List Int)},
      tseitin subs "eq" fuel x = some C →
      (∀ y ∈ visited subs fuel x, y ∈ V) →
      Dpll.cnfVal (wfix subs V w) (stripCNF C) = true := by
  intro fuel
  induction fuel with
  | zero =>
    intro x C h
    simp [tseitin] at h
  | succ fuel ih =>
    intro x C h hsub
    rcases tseitin_cases h with ⟨hn, rfl⟩ | ⟨op, l, r, cl, cr, hn, hcl, hcr, rfl⟩
    · rfl
    · have hxv : x ∈ V := by
        refine hsub x ?_
        rw [visited_node hn]
        exact List.mem_cons_self _ _
      have hsl : ∀ y ∈ visited subs fuel l, y ∈ V := by
        intro y hy
        refine hsub y ?_
        rw [visited_node hn]
        exact List.mem_cons_of_mem _ (List.mem_append_left _ hy)
      have hsr : ∀ y ∈ visited subs fuel r, y ∈ V := by
        intro y hy
        refine hsub y ?_
        rw [visited_node hn]
        exact List.mem_cons_of_mem _ (List.mem_append_right _ hy)
      rw [stripCNF_append, stripCNF_append, cnfVal_append, cnfVal_append]
      rw [eq_node_sat hW hxv hn, ih hcl hsl, ih hcr hsr]
      rfl

/-- From a model of the left-to-right clauses below a true literal, the
repaired valuation makes that literal true. -/
theorem ltr_fix {subs : List (Int × List Elem)} {V : List Int}
    {w : Int → Bool} (hW : SubsWf subs)
    (hNS : ∀ y ∈ V, ∀ op a b, nodeOf subs y = some (op, a, b) →
      (a < 0 → -a ∉ V) ∧ (b < 0 → -b ∉ V)) :
    ∀ {fuel : Nat} {x : Int} {C : List (List Int)},
      tseitin subs "left_to_right" fuel x = some C →
      (∀ y ∈ visited subs fuel x, y ∈ V) →
      (x < 0 → -x ∉ V) →
      Dpll.cnfVal w (stripCNF C) = true →
      Dpll.litVal w x = true →
      Dpll.litVal (wfix subs V w) x = true := by
  intro fuel
  induction fuel with
  | zero =>
    intro x C h
    simp [tseitin] at h
  | succ fuel ih =>
    intro x C h hsub hnegx hval hw
    rcases tseitin_cases h with ⟨hn, rfl⟩ | ⟨op, l, r, cl, cr, hn, hcl, hcr, rfl⟩
    · -- not a node: the value is untouched
      rcases lt_trichotomy x 0 with hs | hs | hs
      · rw [Dpll.litVal, if_neg (by omega)] at hw ⊢
        rw [wfix, fixv_not_mem (hnegx hs)]
        exact hw
      · subst hs
        rw [Dpll.litVal, if_neg (by omega)] at hw ⊢
        rw [show -(0 : Int) = 0 by rfl] at hw ⊢
        rw [wfix, fixv_none hn]
        exact hw
      · rw [Dpll.litVal, if_pos hs] at hw ⊢
        rw [wfix, fixv_none hn]
        exact hw
    · have hb := nodeOf_bounds hW hn
      have hxv : x ∈ V := by
        refine hsub x ?_
        rw [visited_node hn]
        exact List.mem_cons_self _ _
      have hsl : ∀ y ∈ visited subs fuel l, y ∈ V := by
        intro y hy
        refine hsub y ?_
        rw [visited_node hn]
        exact List.mem_cons_of_mem _ (List.mem_append_left _ hy)
      have hsr : ∀ y ∈ visited subs fuel r, y ∈ V := by
        intro y hy
        refine hsub y ?_
        rw [visited_node hn]
        exact List.mem_cons_of_mem _ (List.mem_append_right _ hy)
      have hns := hNS x hxv op l r hn
      obtain ⟨sf, hmem, hlm, hrm, hor⟩ := nodeOf_mem hn
      have hx0 : x ≠ 0 := by omega
      have hl0 : l ≠ 0 := Int.natAbs_pos.mp (by omega)
      have hr0 : r ≠ 0 := Int.natAbs_pos.mp (by omega)
      have hid := wfix_node w hW hxv hn
      have hwx : w x = true := by
        rw [Dpll.litVal, if_pos (by omega)] at hw
        exact hw
      rw [stripCNF_append, stripCNF_append, cnfVal_append, cnfVal_append,
        Bool.and_eq_true, Bool.and_eq_true] at hval
      obtain ⟨⟨hnode, hvcl⟩, hvcr⟩ := hval
      rw [Dpll.litVal, if_pos (by omega)]
      by_cases hand : op = "and"
      · rw [hand] at hid
        rw [if_pos rfl] at hid
        rw [nodeClauses, hand, if_pos rfl,
          if_neg (show ¬("left_to_right" = "eq") from by decide),
          if_pos rfl] at hnode
        rw [stripCNF] at hnode
        simp only [List.map_cons, List.map_nil] at hnode
        have hf1 : List.filter (fun z => decide (z ≠ 0)) [-x, l, 0]
            = [-x, l] := by
          simp [List.filter, hl0, hx0]
        have hf2 : List.filter (fun z => decide (z ≠ 0)) [-x, r, 0]
            = [-x, r] := by
          simp [List.filter, hr0, hx0]
        rw [hf1, hf2, Dpll.cnfVal] at hnode
        simp only [List.all_cons, List.all_nil, Dpll.clauseVal,
          List.any_cons, List.any_nil, Bool.and_eq_true,
          Bool.or_eq_true] at hnode
        have hnx : Dpll.litVal w (-x) = !(Dpll.litVal w x) := litVal_flip _ hx0
        rw [hnx, hw] at hnode
        have hwl : Dpll.litVal w l = true := by
          rcases hnode.1 with h5 | h5 | h5
          · exact absurd h5 (by simp)
          · exact h5
          · exact absurd h5 (by simp)
        have hwr : Dpll.litVal w r = true := by
          rcases hnode.2.1 with h5 | h5 | h5
          · exact absurd h5 (by simp)
          · exact h5
          · exact absurd h5 (by simp)
        have hfl := ih hcl hsl hns.1 hvcl hwl
        have hfr := ih hcr hsr hns.2 hvcr hwr
        rw [hid, hfl, hfr]
        rfl
      · rw [if_neg hand] at hid
        rw [nodeClauses, if_neg hand,
          if_neg (show ¬("left_to_right" = "eq") from by decide),
          if_pos rfl] at hnode
        rw [stripCNF] at hnode
        simp only [List.map_cons, List.map_nil] at hnode
        have hf1 : List.filter (fun z => decide (z ≠ 0)) [-x, l, r, 0]
            = [-x, l, r] := by
          simp [List.filter, hl0, hr0, hx0]
        rw [hf1, Dpll.cnfVal] at hnode
        simp only [List.all_cons, List.all_nil, Dpll.clauseVal,
          List.any_cons, List.any_nil, Bool.and_eq_true,
          Bool.or_eq_true] at hnode
        have hnx : Dpll.litVal w (-x) = !(Dpll.litVal w x) := litVal_flip _ hx0
        rw [hnx, hw] at hnode
        have hlr : Dpll.litVal w l = true ∨ Dpll.litVal w r = true := by
          rcases hnode.1 with h5 | h5 | h5
          · exact absurd h5 (by simp)
          · exact Or.inl h5
          · exact Or.inr (by simpa using h5)
        rw [hid]
        rcases hlr with h5 | h5
        · rw [ih hcl hsl hns.1 hvcl h5]
          rfl
        · rw [ih hcr hsr hns.2 hvcr h5]
          simp

theorem runClauses_unfold {mode s : String} {C : List (List Int)}
    (h : runClauses mode s = some C) :
    ∃ st r E, parseFormula s = some (st, .int r) ∧
      tseitin st.subs mode (st.cnt.natAbs + 1) r = some E ∧
      C = [r, 0] :: E := by
  rw [runClauses] at h
  split at h
  · exact absurd h (by simp)
  · rename_i st r hp
    split at h
    · exact absurd h (by simp)
    · rename_i E hts
      obtain rfl : ([r, 0] :: E) = C := by simpa using h
      exact ⟨st, r, E, hp, hts, rfl⟩
  · exact absurd h (by simp)

theorem subsWf_of_inv {st : PSt} (hI : Inv st) : SubsWf st.subs :=
  fun p hp => ⟨(hI.hkey p hp).1, hI.hop p hp⟩

/-- The hard direction of equisatisfiability: a model of the left-to-right
output yields a model of the equivalence output, obtained by recomputing
the visited definition variables bottom-up. -/
theorem ltr_sat_to_eq_sat {s : String} {Ceq Cltr : List (List Int)}
    (heq : runClauses "eq" s = some Ceq)
    (hltr : runClauses "left_to_right" s = some Cltr)
    (hsat : SatD Cltr) : SatD Ceq := by
  obtain ⟨st, r, E, hp, hts, rfl⟩ := runClauses_unfold heq
  obtain ⟨st2, r2, L, hp2, hts2, rfl⟩ := runClauses_unfold hltr
  rw [hp] at hp2
  obtain ⟨h1, h2⟩ := Prod.mk.inj (Option.some.inj hp2)
  obtain rfl : r = r2 := by
    injection h2 with h3
    try exact h3
  rw [← h1] at hts2
  obtain ⟨hI, hmem⟩ := parseFormula_inv hp
  have hW := subsWf_of_inv hI
  have hrstk : r ∈ elemInts st.stack := mem_elemInts.mpr hmem
  have hr0 : r ≠ 0 := Int.natAbs_pos.mp (by
    have := hI.hstk r hrstk
    omega)
  have hscons : ∀ C : List (List Int),
      stripCNF ([r, 0] :: C) = [r] :: stripCNF C := by
    intro C
    rw [stripCNF, List.map_cons]
    congr 1
    simp [hr0]
  have hsplit1 : ∀ (u : Int → Bool) (T : Dpll.CNF),
      Dpll.cnfVal u ([r] :: T) = (Dpll.litVal u r && Dpll.cnfVal u T) := by
    intro u T
    rw [Dpll.cnfVal, List.all_cons]
    congr 1
    simp [Dpll.clauseVal]
  obtain ⟨w, hw⟩ := hsat
  rw [hscons, hsplit1, Bool.and_eq_true] at hw
  obtain ⟨hroot, hL⟩ := hw
  have hnegroot : r < 0 →
      -r ∉ visited st.subs (st.cnt.natAbs + 1) r := by
    intro hneg hvis
    rw [visited_none (nodeOf_neg hW (le_of_lt hneg))] at hvis
    simp at hvis
  have hNS : ∀ y ∈ visited st.subs (st.cnt.natAbs + 1) r,
      ∀ op a b, nodeOf st.subs y = some (op, a, b) →
      (a < 0 → -a ∉ visited st.subs (st.cnt.natAbs + 1) r) ∧
      (b < 0 → -b ∉ visited st.subs (st.cnt.natAbs + 1) r) := by
    intro y hy op a b hnd
    obtain ⟨sfy, hmemy, ham, hbm, h3⟩ := nodeOf_mem hnd
    constructor
    · intro hneg hvis
      exact negsafe_operand hI hrstk hmemy ham hneg hvis
    · intro hneg hvis
      exact negsafe_operand hI hrstk hmemy hbm hneg hvis
  have hfix := ltr_fix hW hNS hts2 (fun y hy => hy) hnegroot hL hroot
  have hE : Dpll.cnfVal (wfix st.subs (visited st.subs (st.cnt.natAbs + 1) r) w)
      (stripCNF E) = true := eq_clauses_sat hW hts (fun y hy => hy)
  refine ⟨wfix st.subs (visited st.subs (st.cnt.natAbs + 1) r) w, ?_⟩
  rw [hscons, hsplit1, Bool.and_eq_true]
  exact ⟨hfix, hE⟩

end F2C

/-- C9: on every input formula on which both encoder runs complete without
an exception, the clause list emitted in `eq` mode and the clause list
emitted in `left_to_right` mode are equisatisfiable, and the
`left_to_right` run emits at most as many clauses as the `eq` run. -/
theorem C9_modes_equisat_and_count {s : String}
    {Ceq Cltr : List (List Int)}
    (heq : F2C.runClauses "eq" s = some Ceq)
    (hltr : F2C.runClauses "left_to_right" s = some Cltr) :
    (F2C.SatD Ceq ↔ F2C.SatD Cltr) ∧ Cltr.length ≤ Ceq.length := by
  obtain ⟨st, r, E, hp, hts, rfl⟩ := F2C.runClauses_unfold heq
  obtain ⟨st2, r2, L, hp2, hts2, hCL⟩ := F2C.runClauses_unfold hltr
  rw [hp] at hp2
  obtain ⟨h1, h2⟩ := Prod.mk.inj (Option.some.inj hp2)
  obtain rfl : r = r2 := by
    injection h2 with h3
    try exact h3
  rw [← h1] at hts2
  subst hCL
  obtain ⟨hI, hmem⟩ := F2C.parseFormula_inv hp
  have hrstk : r ∈ F2C.elemInts st.stack := F2C.mem_elemInts.mpr hmem
  have hr0 : r ≠ 0 := Int.natAbs_pos.mp (by
    have := hI.hstk r hrstk
    omega)
  have hscons : ∀ C : List (List Int),
      F2C.stripCNF ([r, 0] :: C) = [r] :: F2C.stripCNF C := by
    intro C
    rw [F2C.stripCNF, List.map_cons]
    congr 1
    simp [hr0]
  have hsplit1 : ∀ (u : Int → Bool) (T : Dpll.CNF),
      Dpll.cnfVal u ([r] :: T) = (Dpll.litVal u r && Dpll.cnfVal u T) := by
    intro u T
    rw [Dpll.cnfVal, List.all_cons]
    congr 1
    simp [Dpll.clauseVal]
  refine ⟨⟨?_, ?_⟩, ?_⟩
  · rintro ⟨u, hu⟩
    rw [hscons, hsplit1, Bool.and_eq_true] at hu
    refine ⟨u, ?_⟩
    rw [hscons, hsplit1, Bool.and_eq_true]
    exact ⟨hu.1, F2C.tseitin_eq_to_ltr hts hts2 hu.2⟩
  · exact F2C.ltr_sat_to_eq_sat heq hltr
  · have := F2C.tseitin_count hts hts2
    simp only [List.length_cons]
    omega

theorem C9_modes_equisat_and_count_witness :
    (F2C.SatD [[3, 0], [-1, -2, 3, 0], [1, -3, 0], [2, -3, 0]]
        ↔ F2C.SatD [[3, 0], [-3, 1, 0], [-3, 2, 0]])
      ∧ ([[3, 0], [-3, 1, 0], [-3, 2, 0]] : List (List Int)).length
        ≤ ([[3, 0], [-1, -2, 3, 0], [1, -3, 0],
            [2, -3, 0]] : List (List Int)).length :=
  @C9_modes_equisat_and_count "(and x1 x2)"
    [[3, 0], [-1, -2, 3, 0], [1, -3, 0], [2, -3, 0]]
    [[3, 0], [-3, 1, 0], [-3, 2, 0]] (by rfl) (by rfl)

/-! ## The claims

Each claim of the specification is settled by one theorem below; a theorem
with hypotheses comes with a closed witness instantiating it, and a
corrected claim with a counterexample against the original wording. -/

/-- The count the specification describes for `choose_literal`: one
occurrence per clause per sign, regardless of multiplicity inside the
clause.  This definition follows the SPECIFICATION text, for comparison
with `posCount`, the count the code accumulates. -/
def Dpll.posCountPC (F : Dpll.CNF) (v : Int) : Nat :=
  F.countP (fun c => c.any (Dpll.isPosOcc v))

/-- Per-clause negative count as the specification describes it; compare
`negCount`. -/
def Dpll.negCountPC (F : Dpll.CNF) (v : Int) : Nat :=
  F.countP (fun c => c.any (Dpll.isNegOcc v))

theorem isMaxPos_unique {F : Dpll.CNF} {p q : Int}
    (hp : Dpll.IsMaxPos F p) (hq : Dpll.IsMaxPos F q) : p = q := by
  have h1 := (hp.2 q).2
  have h2 := (hq.2 p).2
  have h3 := (hp.2 q).1
  have h4 := (hq.2 p).1
  omega

theorem isMaxNeg_unique {F : Dpll.CNF} {p q : Int}
    (hp : Dpll.IsMaxNeg F p) (hq : Dpll.IsMaxNeg F q) : p = q := by
  have h1 := (hp.2 q).2
  have h2 := (hq.2 p).2
  have h3 := (hp.2 q).1
  have h4 := (hq.2 p).1
  omega

theorem solve_one_eval : Dpll.solve "1 0" = some (some [1]) := by
  have h1 : Dpll.readClauses "1 0" = some [[1]] := by decide
  rw [Dpll.solve_eq h1]
  have hU : Dpll.unitProp [[1]] [] = (true, [], [1]) := by
    simp [Dpll.unitProp, Dpll.propLoop, Dpll.eliminate, Dpll.elimClause,
      Dpll.insertSet, Dpll.propPass, Dpll.stripLit]
  rw [Dpll.dpllF_sat hU]
  rfl

theorem solve_two_eval : Dpll.solve "1 2 0" = some (some [1]) := by
  have h1 : Dpll.readClauses "1 2 0" = some [[1, 2]] := by decide
  rw [Dpll.solve_eq h1]
  have hU : Dpll.unitProp [[1, 2]] [] = (true, [[1, 2]], []) := by
    simp [Dpll.unitProp, Dpll.propLoop, Dpll.eliminate, Dpll.elimClause,
      Dpll.insertSet]
  have hC : Dpll.chooseLit [[1, 2]] = some 1 := by decide
  rw [Dpll.dpllF_branch hU (by decide) hC]
  have hU2 : Dpll.unitProp [[1, 2]] (Dpll.insertSet [] 1)
      = (true, [], [1]) := by
    simp [Dpll.unitProp, Dpll.propLoop, Dpll.eliminate, Dpll.elimClause,
      Dpll.insertSet, Dpll.propPass, Dpll.stripLit]
  rw [Dpll.dpllF_sat hU2]
  rfl

/-- C1 (amended statement): on an input whose clause reading succeeds and
whose search completes without the uncaught `choose_literal` exception,
`solve` is partially correct: it answers `True` exactly when the parsed
clause set is satisfiable, and a recorded assignment really is a model. -/
theorem C1_solve_partial_correct {s : String} {F : Dpll.CNF}
    {res : Option (List Int)} (hF : Dpll.readClauses s = some F)
    (h : Dpll.solve s = some res) :
    ((∃ M, res = some M) ↔ Dpll.Sat F) ∧
      ∀ M, res = some M → Dpll.cnfVal (Dpll.wOf M) F = true := by
  rw [Dpll.solve_eq hF] at h
  have hsound : ∀ M, res = some M → Dpll.cnfVal (Dpll.wOf M) F = true := by
    rintro M rfl
    have hs := Dpll.dpll_sound h
    have hc := Dpll.dpll_consistent h (by intro l hl; simp at hl)
    exact Dpll.satBy_sat hc hs.2
  refine ⟨⟨?_, ?_⟩, hsound⟩
  · rintro ⟨M, rfl⟩
    exact ⟨Dpll.wOf M, hsound M rfl⟩
  · intro hsat
    rcases hres : res with _ | M
    · rw [hres] at h
      obtain ⟨w, hw⟩ := hsat
      have := Dpll.dpll_complete h w (by intro a ha; simp at ha)
      rw [hw] at this
      exact absurd this (by simp)
    · exact ⟨M, rfl⟩

theorem C1_solve_partial_correct_witness :
    ((∃ M, (some [1] : Option (List Int)) = some M) ↔ Dpll.Sat [[1]]) ∧
      ∀ M, (some [1] : Option (List Int)) = some M →
        Dpll.cnfVal (Dpll.wOf M) [[1]] = true :=
  @C1_solve_partial_correct "1 0" [[1]] (some [1]) (by decide) solve_one_eval

/-- C1 counterexample: the original claim fails — on this SATISFIABLE input
`solve` neither returns `True` nor `False`: the search reaches a reduced
formula holding only an empty clause, and `choose_literal` raises an
uncaught exception (`none`). -/
theorem C1_counterexample :
    Dpll.readClauses "1 2 0\n1 3 0\n1 4 0\n-1 -1 0"
        = some [[1, 2], [1, 3], [1, 4], [-1, -1]]
      ∧ Dpll.cnfVal (fun v => decide (v ≠ 1))
          [[1, 2], [1, 3], [1, 4], [-1, -1]] = true
      ∧ Dpll.solve "1 2 0\n1 3 0\n1 4 0\n-1 -1 0" = none := by
  refine ⟨by decide, by decide, ?_⟩
  have h1 : Dpll.readClauses "1 2 0\n1 3 0\n1 4 0\n-1 -1 0"
      = some [[1, 2], [1, 3], [1, 4], [-1, -1]] := by decide
  rw [Dpll.solve_eq h1]
  have hU : Dpll.unitProp [[1, 2], [1, 3], [1, 4], [-1, -1]] []
      = (true, [[1, 2], [1, 3], [1, 4], [-1, -1]], []) := by
    simp [Dpll.unitProp, Dpll.propLoop, Dpll.eliminate, Dpll.elimClause]
  have hC : Dpll.chooseLit [[1, 2], [1, 3], [1, 4], [-1, -1]] = some 1 := by
    decide
  rw [Dpll.dpllF_branch hU (by decide) hC]
  have hU2 : Dpll.unitProp [[1, 2], [1, 3], [1, 4], [-1, -1]]
      (Dpll.insertSet [] 1) = (true, [[]], [1]) := by
    simp [Dpll.unitProp, Dpll.propLoop, Dpll.eliminate, Dpll.elimClause,
      Dpll.insertSet]
  rw [Dpll.dpllF_stuck hU2 (by decide) (by decide)]

/-- C2: the bug — `get_output` builds the DIMACS text only to print it;
the value `run` returns is always the empty string, never the claimed
DIMACS document. -/
theorem C2_run_returns_empty {mode s out : String}
    (h : F2C.run mode s = some out) : out = "" := by
  rw [F2C.run] at h
  split at h
  · exact absurd h (by simp)
  · simpa [F2C.getOutput] using h.symm

theorem C2_run_returns_empty_witness :
    F2C.run "eq" "(and x1 x2)" = some "" ∧ ("" : String) = "" :=
  ⟨by rfl, @C2_run_returns_empty "eq" "(and x1 x2)" "" (by rfl)⟩

/-- C3 (amended statement): the dictionaries `choose_literal` decides from
record, for each id, the TOTAL number of its positive and of its negative
literal occurrences, with multiplicity inside a clause — not one per
clause. -/
theorem C3_counts_with_multiplicity (F : Dpll.CNF) (v : Int) :
    Dpll.dlookup (Dpll.countDicts F).1 v
        = (if Dpll.posCount F v = 0 then none else some (Dpll.posCount F v))
      ∧ Dpll.dlookup (Dpll.countDicts F).2 v
        = (if Dpll.negCount F v = 0 then none
          else some (Dpll.negCount F v)) :=
  ⟨Dpll.countDicts_lookup_pos F v, Dpll.countDicts_lookup_neg F v⟩

/-- C3 counterexample: on `[[2, 2], [1]]` the clause `[2, 2]` contributes
TWO occurrences of the id 2, so the code decides 2; under the per-clause
counting the claim describes, both ids would count 1 and the tie-break
toward the smaller id would decide 1. -/
theorem C3_counterexample :
    Dpll.posCount [[2, 2], [1]] 2 = 2
      ∧ Dpll.posCountPC [[2, 2], [1]] 2 = 1
      ∧ Dpll.posCount [[2, 2], [1]] 2 ≠ Dpll.posCountPC [[2, 2], [1]] 2
      ∧ Dpll.chooseLit [[2, 2], [1]] = some 2 := by
  refine ⟨by decide, by decide, by decide, by decide⟩

/-- C4: whenever `solve` answers `True`, every clause of the originally
parsed formula holds a literal of the recorded assignment. -/
theorem C4_model_covers_clauses {s : String} {F : Dpll.CNF} {M : List Int}
    (hF : Dpll.readClauses s = some F)
    (h : Dpll.solve s = some (some M)) :
    ∀ c ∈ F, ∃ l ∈ c, l ∈ M := by
  rw [Dpll.solve_eq hF] at h
  exact fun c hc => (Dpll.dpll_sound h).2 c hc

theorem C4_model_covers_clauses_witness :
    ∃ l ∈ ([1, 2] : List Int), l ∈ ([1] : List Int) :=
  @C4_model_covers_clauses "1 2 0" [[1, 2]] [1] (by decide) solve_two_eval
    [1, 2] (by decide)

/-- C5: the no-contradiction invariant — `unit_propagation` preserves
consistency of the assignment set, and an assignment `solve` returns never
holds an id with both signs. -/
theorem C5_no_contradiction :
    (∀ (F : Dpll.CNF) (A : List Int) (b : Bool) (RF : Dpll.CNF)
        (A2 : List Int), Dpll.Consistent A →
        Dpll.unitProp F A = (b, RF, A2) → Dpll.Consistent A2)
    ∧ ∀ (s : String) (M : List Int), Dpll.solve s = some (some M) →
        ∀ l ∈ M, l ≠ 0 → -l ∉ M := by
  constructor
  · intro F A b RF A2 hcons hU
    exact Dpll.unitProp_consistent hU hcons
  · intro s M h l hl hl0 hnl
    rw [Dpll.solve] at h
    split at h
    · exact absurd h (by simp)
    · exact Dpll.dpll_consistent h (by intro a ha; simp at ha) l hl hl0 hnl

theorem C5_no_contradiction_witness :
    Dpll.Consistent [1] ∧ ∀ l ∈ [1], l ≠ 0 → -l ∉ [1] := by
  have h := C5_no_contradiction
  refine ⟨h.1 [[1]] [] true [] [1] (by intro l hl; simp at hl) ?_,
    h.2 "1 0" [1] solve_one_eval⟩
  simp [Dpll.unitProp, Dpll.propLoop, Dpll.eliminate, Dpll.elimClause,
    Dpll.insertSet, Dpll.propPass, Dpll.stripLit]

/-- C6: the decision rule of `choose_literal`.  With both polarities
present, `maxPos` the id of highest positive count and `maxNeg` the id of
highest negative count (ties toward the smaller id), the decision is
`+maxPos` on a strictly larger positive count, `-maxNeg` on a strictly
smaller one, and on equal counts the literal of the larger id, positive
when `maxPos ≥ maxNeg`; with one polarity only, that polarity's maximum. -/
theorem C6_decision_rule (F : Dpll.CNF) :
    (∀ p n : Int, Dpll.IsMaxPos F p → Dpll.IsMaxNeg F n →
      Dpll.chooseLit F
        = some (if Dpll.negCount F n < Dpll.posCount F p then p
          else if Dpll.posCount F p < Dpll.negCount F n then -n
          else if n ≤ p then p else -n))
    ∧ ((¬∃ v, 0 < Dpll.negCount F v) → ∀ p, Dpll.IsMaxPos F p →
        Dpll.chooseLit F = some p)
    ∧ ((¬∃ v, 0 < Dpll.posCount F v) → ∀ n, Dpll.IsMaxNeg F n →
        Dpll.chooseLit F = some (-n)) := by
  refine ⟨?_, ?_, ?_⟩
  · intro p n hp hn
    have hpd : (Dpll.countDicts F).1 ≠ [] := by
      rw [Ne, Dpll.countDicts_pos_empty_iff]
      intro hcon
      exact hcon ⟨p, by have := hp.1; omega⟩
    have hnd : (Dpll.countDicts F).2 ≠ [] := by
      rw [Ne, Dpll.countDicts_neg_empty_iff]
      intro hcon
      exact hcon ⟨n, by have := hn.1; omega⟩
    obtain ⟨pe, hpe⟩ : ∃ pe, Dpll.maxEntry (Dpll.countDicts F).1 = some pe := by
      rcases hme : Dpll.maxEntry (Dpll.countDicts F).1 with _ | pe
      · rw [Dpll.maxEntry_eq_none_iff] at hme
        exact absurd hme hpd
      · exact ⟨pe, rfl⟩
    obtain ⟨ne, hne⟩ : ∃ ne, Dpll.maxEntry (Dpll.countDicts F).2 = some ne := by
      rcases hme : Dpll.maxEntry (Dpll.countDicts F).2 with _ | ne
      · rw [Dpll.maxEntry_eq_none_iff] at hme
        exact absurd hme hnd
      · exact ⟨ne, rfl⟩
    obtain ⟨p₀, cp₀⟩ := pe
    obtain ⟨n₀, cn₀⟩ := ne
    obtain ⟨hcp, hmp⟩ := Dpll.maxEntry_pos_char hpe
    obtain ⟨hcn, hmn⟩ := Dpll.maxEntry_neg_char hne
    obtain rfl : p₀ = p := isMaxPos_unique hmp hp
    obtain rfl : n₀ = n := isMaxNeg_unique hmn hn
    simp only [Dpll.chooseLit]
    rw [hpe, hne, hcp, hcn]
    dsimp only
    split_ifs <;> rfl
  · intro hno p hp
    have hpd : (Dpll.countDicts F).1 ≠ [] := by
      rw [Ne, Dpll.countDicts_pos_empty_iff]
      intro hcon
      exact hcon ⟨p, by have := hp.1; omega⟩
    have hnd : (Dpll.countDicts F).2 = [] := by
      rw [Dpll.countDicts_neg_empty_iff]
      intro ⟨v, hv⟩
      exact hno ⟨v, by omega⟩
    obtain ⟨pe, hpe⟩ : ∃ pe, Dpll.maxEntry (Dpll.countDicts F).1 = some pe := by
      rcases hme : Dpll.maxEntry (Dpll.countDicts F).1 with _ | pe
      · rw [Dpll.maxEntry_eq_none_iff] at hme
        exact absurd hme hpd
      · exact ⟨pe, rfl⟩
    obtain ⟨p₀, cp₀⟩ := pe
    obtain ⟨hcp, hmp⟩ := Dpll.maxEntry_pos_char hpe
    obtain rfl : p₀ = p := isMaxPos_unique hmp hp
    have hnone : Dpll.maxEntry (Dpll.countDicts F).2 = none := by
      rw [Dpll.maxEntry_eq_none_iff]
      exact hnd
    simp only [Dpll.chooseLit]
    rw [hpe, hnone]
  · intro hno n hn
    have hnd : (Dpll.countDicts F).2 ≠ [] := by
      rw [Ne, Dpll.countDicts_neg_empty_iff]
      intro hcon
      exact hcon ⟨n, by have := hn.1; omega⟩
    have hpd : (Dpll.countDicts F).1 = [] := by
      rw [Dpll.countDicts_pos_empty_iff]
      intro ⟨v, hv⟩
      exact hno ⟨v, by omega⟩
    obtain ⟨ne, hne⟩ : ∃ ne, Dpll.maxEntry (Dpll.countDicts F).2 = some ne := by
      rcases hme : Dpll.maxEntry (Dpll.countDicts F).2 with _ | ne
      · rw [Dpll.maxEntry_eq_none_iff] at hme
        exact absurd hme hnd
      · exact ⟨ne, rfl⟩
    obtain ⟨n₀, cn₀⟩ := ne
    obtain ⟨hcn, hmn⟩ := Dpll.maxEntry_neg_char hne
    obtain rfl : n₀ = n := isMaxNeg_unique hmn hn
    have hnone : Dpll.maxEntry (Dpll.countDicts F).1 = none := by
      rw [Dpll.maxEntry_eq_none_iff]
      exact hpd
    simp only [Dpll.chooseLit]
    rw [hne, hnone]

theorem C6_decision_rule_witness : Dpll.chooseLit [[2, 2], [1]] = some 2 := by
  have h := (C6_decision_rule [[2, 2], [1]]).2.1
  refine h ?_ 2 ?_
  · rintro ⟨v, hv⟩
    revert hv
    simp [Dpll.negCount, Dpll.isNegOcc]
  · refine ⟨by decide, ?_⟩
    intro u
    by_cases h2 : u = 2
    · subst h2
      exact ⟨le_refl _, fun h5 => le_refl _⟩
    by_cases h1 : u = 1
    · subst h1
      refine ⟨by decide, fun h5 => ?_⟩
      exact absurd h5 (by decide)
    · have h0 : Dpll.posCount [[2, 2], [1]] u = 0 := by
        rw [Dpll.posCount, List.countP_eq_zero]
        intro a ha
        have ha2 : a = 2 ∨ a = 1 := by
          simpa using ha
        rcases ha2 with rfl | rfl
        · simp [Dpll.isPosOcc]
          omega
        · simp [Dpll.isPosOcc]
          omega
      refine ⟨by rw [h0]; decide, fun h5 => ?_⟩
      rw [h0] at h5
      exact absurd h5.symm (by decide)

/-- C7 (amended statement): a parsed formula containing the empty clause is
never answered `True` — but `solve` does not always answer `False` on it
either (see the counterexample): the claim holds only in the weakened
direction that no model is ever reported. -/
theorem C7_empty_clause_never_sat {s : String} {F : Dpll.CNF}
    {M : List Int} (hF : Dpll.readClauses s = some F) (hempty : [] ∈ F) :
    Dpll.solve s ≠ some (some M) := by
  intro h
  rw [Dpll.solve_eq hF] at h
  obtain ⟨l, hl, -⟩ := (Dpll.dpll_sound h).2 [] hempty
  simp at hl

theorem C7_empty_clause_never_sat_witness :
    Dpll.solve "1 0\n0" ≠ some (some []) :=
  @C7_empty_clause_never_sat "1 0\n0" [[1], []] [] (by decide) (by decide)

/-- C7 counterexample: on the input holding just the empty clause, the
propagation loop never runs (the empty clause is not a unit clause), the
reduced formula `[[]]` survives, and `choose_literal` raises an uncaught
exception — `solve` returns neither `True` nor `False`. -/
theorem C7_counterexample :
    Dpll.readClauses "0" = some [[]] ∧ Dpll.solve "0" = none := by
  refine ⟨by decide, ?_⟩
  have h1 : Dpll.readClauses "0" = some [[]] := by decide
  rw [Dpll.solve_eq h1]
  have hU : Dpll.unitProp [[]] [] = (true, [[]], []) := by
    simp [Dpll.unitProp, Dpll.propLoop, Dpll.eliminate, Dpll.elimClause]
  exact Dpll.dpllF_stuck hU (by decide) (by decide)

/-- C8: the conflict contract of `unit_propagation` — a failing run returns
exactly `(False, [])`; a clause emptied by stripping aborts its pass at
once, whatever clauses follow; and a successful run's clause list is fully
propagated (no unit clause remains). -/
theorem C8_unit_propagation_contract :
    (∀ (F : Dpll.CNF) (A : List Int) (RF : Dpll.CNF) (A2 : List Int),
        Dpll.unitProp F A = (false, RF, A2) → RF = [])
    ∧ (∀ (l : Int) (c : Dpll.Clause) (rest : Dpll.CNF), l ∉ c →
        Dpll.stripLit l c = [] → Dpll.propPass l (c :: rest) = none)
    ∧ ∀ (F : Dpll.CNF) (A : List Int) (RF : Dpll.CNF) (A2 : List Int),
        Dpll.unitProp F A = (true, RF, A2) → ∀ c ∈ RF, c.length ≠ 1 := by
  refine ⟨?_, ?_, ?_⟩
  · intro F A RF A2 h
    exact Dpll.unitProp_false h
  · intro l c rest hl hstrip
    rw [Dpll.propPass, if_neg hl, if_pos hstrip]
  · intro F A RF A2 h
    exact Dpll.unitProp_nounit h

theorem C8_unit_propagation_contract_witness :
    ([] : Dpll.CNF) = [] ∧ Dpll.propPass 1 [[-1], [5]] = none
      ∧ ∀ c ∈ ([[1, 2]] : Dpll.CNF), c.length ≠ 1 := by
  have h := C8_unit_propagation_contract
  refine ⟨h.1 [[1], [-1]] [] [] [1] ?_,
    h.2.1 1 [-1] [[5]] (by decide) (by decide),
    h.2.2 [[1, 2]] [] [[1, 2]] [] ?_⟩
  · simp [Dpll.unitProp, Dpll.propLoop, Dpll.eliminate, Dpll.elimClause,
      Dpll.insertSet, Dpll.propPass, Dpll.stripLit]
  · simp [Dpll.unitProp, Dpll.propLoop, Dpll.eliminate, Dpll.elimClause,
      Dpll.insertSet]

/-- C10: an input with no clause lines — empty, or only comment lines and a
header line — parses to the empty clause list, and `solve` answers `True`
with the empty assignment recorded. -/
theorem C10_no_clause_lines {s : String}
    (h : ∀ line ∈ Dpll.pySplitlines s,
      line = "" ∨ line.front = 'c' ∨ line.front = 'p') :
    Dpll.solve s = some (some []) := by
  have hF := Dpll.readClauses_skip_all h
  rw [Dpll.solve_eq hF]
  have hU : Dpll.unitProp [] [] = (true, [], []) := by
    simp [Dpll.unitProp, Dpll.propLoop, Dpll.eliminate]
  rw [Dpll.dpllF_sat hU]
  rfl

theorem C10_no_clause_lines_witness :
    Dpll.solve "c a comment\np cnf 0 0" = some (some []) :=
  @C10_no_clause_lines "c a comment\np cnf 0 0" (by decide)
